import Mathlib

/-!
Shallow embedding of the region-based arena allocator in
src/arena_alloc.hh (the `arena::detail` engine: `Region`, `S_regions`,
`find_region_containing`, `find_region_fitting`, `allocate`,
`deallocate`, `reallocate`).

Modelling choices:

* A pointer is an abstract address of type `Int`; the null pointer is
  `0`.  The engine state is the global region list `S_regions`,
  modelled as `List Region`.

* The backing-store provider (`std::allocator<char>` in the
  heap-delegating variant, `mmap`/`VirtualAlloc` in the virtual-memory
  variant; both called from the `Region` constructor) is abstracted as
  a `Provider`: a function that, given the current region list and the
  requested capacity, returns the base address of the new block.  A
  provider is valid when the block it returns is positive and disjoint
  from every existing Region, which is exactly what a real memory
  source guarantees.  `stdProvider` is a canonical valid provider.
  `deallocate_memory` / `S_alloc.deallocate` are only called by
  `Region::destruct` at process teardown and never affect engine
  behaviour, so they do not appear in the model.

* `M_capacity`, `M_size` (both `std::size_t`) and `M_ref_count`
  (`unsigned`) are modelled as unbounded integers.  In every execution
  considered by the theorems below the values stay inside
  `[0, capacity]` resp. stay non-negative (this is proved as an
  invariant), and `capacity` is bounded by the physical memory the
  provider can hand out, so the two's-complement wrap-around of the
  machine types is never engaged and the unbounded model is exact.
-/

namespace Arena

/-- `arena::detail::Region` (arena_alloc.hh): capacity, base address,
bump offset and occupancy counter. -/
structure Region where
  capacity : Int
  data : Int
  size : Int
  refCount : Int
deriving DecidableEq, Repr, Inhabited

/-- `Region::top()`: `M_data + M_size`. -/
def Region.top (r : Region) : Int := r.data + r.size

/-- `Region::end()`: `M_data + M_capacity`. -/
def Region.endp (r : Region) : Int := r.data + r.capacity

/-- `Region::resize(diff)`: `M_size += diff`. -/
def Region.resize (r : Region) (diff : Int) : Region := { r with size := r.size + diff }

/-- `Region::clear()`: `M_size = 0`. -/
def Region.clear (r : Region) : Region := { r with size := 0 }

/-- `Region::ref()`: `++M_ref_count`. -/
def Region.ref (r : Region) : Region := { r with refCount := r.refCount + 1 }

/-- `Region::unref()`: `--M_ref_count`. -/
def Region.unref (r : Region) : Region := { r with refCount := r.refCount - 1 }

/-- `Region::unused()`: `M_ref_count == 0`. -/
def Region.unused (r : Region) : Bool := r.refCount == 0

/-- The containment test of `find_region_containing`:
`p >= it->data () && p < it->top ()`. -/
def Region.containsPtr (r : Region) (p : Int) : Bool := decide (r.data ≤ p ∧ p < r.top)

/-- The fit test of `find_region_fitting`:
`it->top () + n < it->end ()` (strict less-than). -/
def Region.fits (r : Region) (n : Int) : Bool := decide (r.top + n < r.endp)

/-- Whether the address `p` lies in the Region's full address range
`[data, data + capacity)` (used to state invariants; Regions never
move, so this range is fixed at construction). -/
def Region.inRange (r : Region) (p : Int) : Bool := decide (r.data ≤ p ∧ p < r.endp)

/-- The capacity chosen by the `Region` constructor:
`std::max (S_capacity, min_cap)` with `S_capacity = 4096`. -/
def capOf (n : Nat) : Int := max 4096 (n : Int)

/-- A backing-store provider: given the current region list and the
capacity of the block being constructed, returns the base address of
the new block (`allocate_memory` / `S_alloc.allocate`). -/
def Provider : Type := List Region → Int → Int

/-- A provider is valid when the block it returns is at a positive
address and disjoint from every existing Region's address range. -/
def ValidProvider (P : Provider) : Prop :=
  ∀ rs cap, 0 < P rs cap ∧ ∀ r ∈ rs, P rs cap + cap ≤ r.data ∨ r.endp ≤ P rs cap

/-- `Region::Region(min_cap)`: capacity `max(4096, min_cap)`, fresh
backing block, size 0, occupancy 0. -/
def Region.construct (P : Provider) (rs : List Region) (minCap : Nat) : Region :=
  { capacity := capOf minCap
    data := P rs (capOf minCap)
    size := 0
    refCount := 0 }

/-- First index in the list satisfying the predicate (the iterator
loops of `find_region_containing` / `find_region_fitting`). -/
def findIdxO (p : Region → Bool) : List Region → Option Nat
  | [] => none
  | r :: rs => if p r then some 0 else (findIdxO p rs).map (· + 1)

/-- `arena::detail::find_region_containing`: first Region whose
`[data, top)` interval contains `p`. -/
def find_region_containing (rs : List Region) (p : Int) : Option Nat :=
  findIdxO (fun r => r.containsPtr p) rs

/-- `arena::detail::find_region_fitting`: if `hint` is non-null and its
containing Region passes the fit test, that Region; otherwise the
first Region (in creation order) passing the fit test. -/
def find_region_fitting (rs : List Region) (n : Nat) (hint : Int) : Option Nat :=
  match (if hint ≠ 0 then find_region_containing rs hint else none) with
  | some i =>
      if (rs.getD i default).fits n then some i
      else findIdxO (fun r => r.fits n) rs
  | none => findIdxO (fun r => r.fits n) rs

/-- `arena::detail::allocate`, parametrized by the backing-store
provider: find-or-create a fitting Region, return its `top()`, grow it
by `n` and take a reference. -/
def allocateP (P : Provider) (rs : List Region) (n : Nat) (hint : Int) :
    Int × List Region :=
  match find_region_fitting rs n hint with
  | some i =>
      let r := rs.getD i default
      (r.top, rs.set i ((r.resize n).ref))
  | none =>
      let r := Region.construct P rs n
      (r.top, rs ++ [(r.resize n).ref])

/-- `arena::detail::deallocate`: find the containing Region (null and
foreign pointers find none and are a no-op), drop a reference, and
either clear the Region (occupancy 0) or shrink it (freed block was
the top) or leave the size unchanged. -/
def deallocate (rs : List Region) (p : Int) (n : Nat) : List Region :=
  match find_region_containing rs p with
  | none => rs
  | some i =>
      let r := (rs.getD i default).unref
      let r2 :=
        if r.unused then r.clear
        else if r.top - n = p then r.resize (0 - n)
        else r
      rs.set i r2

/-- `arena::detail::reallocate`, parametrized by the provider: null
behaves as `allocate`, a foreign pointer returns null, `to_n == 0`
behaves as `deallocate`, then in-place resize / shrink no-op / copying
reallocation. -/
def reallocateP (P : Provider) (rs : List Region) (p : Int) (from_n to_n : Nat)
    (hint : Int) : Int × List Region :=
  if p = 0 then allocateP P rs to_n hint
  else
    match find_region_containing rs p with
    | none => (0, rs)
    | some i =>
        if to_n = 0 then (0, deallocate rs p from_n)
        else
          let r := rs.getD i default
          let diff : Int := (to_n : Int) - (from_n : Int)
          if r.top - from_n = p ∧ r.top + diff < r.endp then
            (p, rs.set i (r.resize diff))
          else if to_n ≤ from_n then (p, rs)
          else
            let q := allocateP P rs to_n hint
            (q.1, deallocate q.2 p from_n)

/-- Smallest positive address past every existing Region: the model's
canonical fresh-block choice. -/
def freshBase (rs : List Region) : Int :=
  rs.foldr (fun r a => max a r.endp) 1

/-- The canonical valid provider: each new block is placed just past
every existing Region. -/
def stdProvider : Provider := fun rs _ => freshBase rs

/-- `allocate` with the canonical provider (the behaviour of both
source variants, whose engine logic is identical). -/
def allocate (rs : List Region) (n : Nat) (hint : Int) : Int × List Region :=
  allocateP stdProvider rs n hint

/-- `reallocate` with the canonical provider. -/
def reallocate (rs : List Region) (p : Int) (from_n to_n : Nat) (hint : Int) :
    Int × List Region :=
  reallocateP stdProvider rs p from_n to_n hint

/-- `arena::detail::default_region_size`. -/
def default_region_size : Int := 4096

/-! ### The engine invariant -/

/-- Two Regions occupy disjoint address ranges. -/
def RangeDisj (a b : Region) : Prop := a.endp ≤ b.data ∨ b.endp ≤ a.data

/-- Invariant of the engine state, preserved by every call with
arbitrary arguments: Region ranges are pairwise disjoint and at
positive addresses, the bump offset stays within `[0, capacity]`, an
unreferenced Region is empty, and the occupancy count is
non-negative. -/
structure EInv (rs : List Region) : Prop where
  disj : ∀ i j, i < rs.length → j < rs.length → i ≠ j →
    RangeDisj (rs.getD i default) (rs.getD j default)
  pos : ∀ r ∈ rs, 0 < r.data
  size_lb : ∀ r ∈ rs, 0 ≤ r.size
  size_ub : ∀ r ∈ rs, r.size ≤ r.capacity
  occ0 : ∀ r ∈ rs, r.refCount = 0 → r.size = 0
  rc_nn : ∀ r ∈ rs, 0 ≤ r.refCount

/-! ### Well-formed call sequences

The spec's caller obligations (§3): a pointer passed to
`deallocate`/`reallocate` was previously returned, is not yet freed,
and comes with its exact original size; allocation requests are for a
positive number of bytes (the adapter layer never forwards `n == 0` to
the engine).  `GState` pairs the engine state with the ghost list of
live allocations, and `Reachable` is the set of states produced by
well-formed call sequences from the initial empty engine. -/

structure GState where
  regions : List Region
  live : List (Int × Nat)

/-- The byte spans of two allocations are disjoint. -/
def SpanDisj (a b : Int × Nat) : Prop :=
  a.1 + (a.2 : Int) ≤ b.1 ∨ b.1 + (b.2 : Int) ≤ a.1

/-- A live allocation is carved from this Region. -/
def belongs (r : Region) (q : Int × Nat) : Bool := r.inRange q.1

inductive Reachable : GState → Prop where
  | init : Reachable ⟨[], []⟩
  | alloc {g : GState} (n : Nat) (hint : Int) (hn : 0 < n) (hg : Reachable g) :
      Reachable ⟨(allocate g.regions n hint).2,
                 ((allocate g.regions n hint).1, n) :: g.live⟩
  | dealloc {g : GState} (p : Int) (n : Nat) (hq : (p, n) ∈ g.live)
      (hg : Reachable g) :
      Reachable ⟨deallocate g.regions p n, g.live.erase (p, n)⟩
  | realloc {g : GState} (p : Int) (from_n to_n : Nat) (hint : Int)
      (hq : (p, from_n) ∈ g.live) (hg : Reachable g) :
      Reachable ⟨(reallocate g.regions p from_n to_n hint).2,
                 if to_n = 0 then g.live.erase (p, from_n)
                 else ((reallocate g.regions p from_n to_n hint).1, to_n) ::
                   g.live.erase (p, from_n)⟩

/-- Full invariant of reachable ghost states: the engine invariant,
occupancy counts the live allocations carved from each Region, every
live span lies inside the used part of its Region, live sizes are
positive and live spans are pairwise disjoint. -/
structure Inv (g : GState) : Prop where
  einv : EInv g.regions
  rc_count : ∀ i, i < g.regions.length →
    (g.regions.getD i default).refCount =
      (g.live.countP (belongs (g.regions.getD i default)) : Int)
  live_in : ∀ q ∈ g.live, ∃ i, i < g.regions.length ∧
    (g.regions.getD i default).data ≤ q.1 ∧
    q.1 + (q.2 : Int) ≤ (g.regions.getD i default).top
  live_pos : ∀ q ∈ g.live, 0 < q.2
  live_disj : g.live.Pairwise SpanDisj


/-! ### Auxiliary definitions for the stated properties -/

/-- The index of the Region an `allocate` call carves from (the index
of the fitting Region, or the index of the newly created one). -/
def allocIdx (rs : List Region) (n : Nat) (hint : Int) : Nat :=
  match find_region_fitting rs n hint with
  | some i => i
  | none => rs.length

/-- Strictly alternating allocate / deallocate cycles: each size in
the list is allocated (null hint) and the returned block is
immediately freed with its exact size. -/
def altTrace (rs : List Region) : List Nat → List Region
  | [] => rs
  | n :: rest =>
      let a := allocate rs n 0
      altTrace (deallocate a.2 a.1 n) rest

/-- Abstract engine call for comparing the two backing-store variants:
pointer arguments refer to the result of an earlier call by its index
in the output list (a `none` hint is the null pointer). -/
inductive AOp where
  | opAlloc (n : Nat) (hint : Option Nat)
  | opDealloc (k : Nat) (n : Nat)
  | opRealloc (k : Nat) (from_n to_n : Nat) (hint : Option Nat)

/-- A run of the engine: its state and the pointers returned so far. -/
structure Run where
  regions : List Region
  outs : List Int

/-- Resolve an abstract hint to a pointer value. -/
def hintVal (outs : List Int) : Option Nat → Int
  | none => 0
  | some k => outs.getD k 0

/-- Execute one abstract call. -/
def runOp (P : Provider) (r : Run) : AOp → Run
  | .opAlloc n h =>
      let a := allocateP P r.regions n (hintVal r.outs h)
      ⟨a.2, r.outs ++ [a.1]⟩
  | .opDealloc k n => ⟨deallocate r.regions (r.outs.getD k 0) n, r.outs⟩
  | .opRealloc k f t h =>
      let a := reallocateP P r.regions (r.outs.getD k 0) f t (hintVal r.outs h)
      ⟨a.2, r.outs ++ [a.1]⟩

/-- Execute an abstract call sequence from the empty engine. -/
def runOps (P : Provider) (ops : List AOp) : Run :=
  ops.foldl (runOp P) ⟨[], []⟩

/-- Two Regions have the same logical content (capacity, bump offset,
occupancy), possibly at different base addresses. -/
def RelReg (a b : Region) : Prop :=
  a.capacity = b.capacity ∧ a.size = b.size ∧ a.refCount = b.refCount

/-- Two pointers denote the same offset within corresponding Regions
of the two runs, or are both null. -/
def PtrCorr (rs1 rs2 : List Region) (a b : Int) : Prop :=
  (a = 0 ∧ b = 0) ∨
  ∃ i, i < rs1.length ∧ (rs1.getD i default).data ≤ a ∧
    a < (rs1.getD i default).endp ∧
    b = (rs2.getD i default).data + (a - (rs1.getD i default).data)

/-- Correspondence between the two variants' runs: both satisfy the
engine invariant, the Region lists agree in capacity / size /
occupancy, and the returned pointers agree up to the Region base
addresses. -/
structure Corr (r1 r2 : Run) : Prop where
  e1 : EInv r1.regions
  e2 : EInv r2.regions
  shape : List.Forall₂ RelReg r1.regions r2.regions
  olen : r1.outs.length = r2.outs.length
  ocorr : ∀ k, PtrCorr r1.regions r2.regions (r1.outs.getD k 0) (r2.outs.getD k 0)

/-! ### Sanity checks of the embedding -/

example : (allocate [] 5 0).1 = 1 := by decide
example : (allocate [] 5 0).2 = [⟨4096, 1, 5, 1⟩] := by decide
example : (allocate [⟨4096, 1, 5, 1⟩] 7 0).1 = 6 := by decide
example : deallocate [⟨4096, 1, 12, 2⟩] 6 7 = [⟨4096, 1, 5, 1⟩] := by decide
example : deallocate [⟨4096, 1, 5, 1⟩] 1 5 = [⟨4096, 1, 0, 0⟩] := by decide
example : (allocate [⟨4096, 1, 4095, 1⟩] 1 1).1 = 4097 := by decide
example : (reallocate [] 0 5 0 0).1 = 1 := by decide

/-! ### List helpers -/

section ListHelpers

variable {α : Type}

theorem getD_set_self {l : List α} {i : Nat} (h : i < l.length) (a d : α) :
    (l.set i a).getD i d = a := by
  induction l generalizing i with
  | nil => simp at h
  | cons x t ih =>
    cases i with
    | zero => simp
    | succ j => simpa using ih (by simpa using h)

theorem getD_set_ne {l : List α} {i j : Nat} (h : i ≠ j) (a d : α) :
    (l.set i a).getD j d = l.getD j d := by
  induction l generalizing i j with
  | nil => simp
  | cons x t ih =>
    cases i with
    | zero =>
      cases j with
      | zero => exact absurd rfl h
      | succ j' => simp
    | succ i' =>
      cases j with
      | zero => simp
      | succ j' =>
        have h' : i' ≠ j' := fun hh => h (by simp [hh])
        simpa using ih h'

theorem getD_append_left {l l' : List α} {i : Nat} (h : i < l.length) (d : α) :
    (l ++ l').getD i d = l.getD i d := by
  induction l generalizing i with
  | nil => simp at h
  | cons x t ih =>
    cases i with
    | zero => simp
    | succ j => simpa using ih (by simpa using h)

theorem getD_append_last {l : List α} (a d : α) :
    (l ++ [a]).getD l.length d = a := by
  induction l with
  | nil => simp
  | cons x t ih => simpa using ih

theorem getD_mem {l : List α} {i : Nat} (h : i < l.length) (d : α) :
    l.getD i d ∈ l := by
  induction l generalizing i with
  | nil => simp at h
  | cons x t ih =>
    cases i with
    | zero => simp
    | succ j => exact List.mem_cons_of_mem _ (ih (by simpa using h))

end ListHelpers

/-! ### Characterization of the linear scans -/

theorem findIdxO_some_iff {p : Region → Bool} {l : List Region} {i : Nat} :
    findIdxO p l = some i ↔
      i < l.length ∧ p (l.getD i default) = true ∧
        ∀ j, j < i → p (l.getD j default) = false := by
  induction l generalizing i with
  | nil => simp [findIdxO]
  | cons x t ih =>
    by_cases hx : p x = true
    · simp only [findIdxO, hx, if_pos]
      constructor
      · rintro h
        cases h
        exact ⟨by simp, by simpa using hx, by omega⟩
      · rintro ⟨h1, h2, h3⟩
        cases i with
        | zero => rfl
        | succ j => exact absurd (h3 0 (by omega)) (by simpa using hx)
    · have hx' : p x = false := by simpa using hx
      simp only [findIdxO, hx', if_neg, Bool.false_eq_true, not_false_iff]
      constructor
      · intro h
        rcases Option.map_eq_some'.mp h with ⟨i', hi', rfl⟩
        rcases ih.mp hi' with ⟨h1, h2, h3⟩
        refine ⟨by simpa using h1, by simpa using h2, ?_⟩
        intro j hj
        cases j with
        | zero => simpa using hx'
        | succ j' => simpa using h3 j' (by omega)
      · rintro ⟨h1, h2, h3⟩
        cases i with
        | zero => exact absurd (by simpa using h2) (by simpa using hx')
        | succ i' =>
          have : findIdxO p t = some i' := by
            refine ih.mpr ⟨by simpa using h1, by simpa using h2, ?_⟩
            intro j hj
            simpa using h3 (j + 1) (by omega)
          simp [this]

theorem findIdxO_none_iff {p : Region → Bool} {l : List Region} :
    findIdxO p l = none ↔ ∀ a ∈ l, p a = false := by
  induction l with
  | nil => simp [findIdxO]
  | cons x t ih =>
    by_cases hx : p x = true
    · simp [findIdxO, hx]
    · have hx' : p x = false := by simpa using hx
      simp [findIdxO, hx', ih]

theorem einv_nil : EInv [] := by
  constructor <;> simp

/-! ### Consequences of the searches -/

theorem containing_some {rs : List Region} {p : Int} {i : Nat}
    (h : find_region_containing rs p = some i) :
    i < rs.length ∧ (rs.getD i default).data ≤ p ∧ p < (rs.getD i default).top := by
  rcases findIdxO_some_iff.mp h with ⟨h1, h2, _⟩
  simp only [Region.containsPtr, decide_eq_true_eq] at h2
  exact ⟨h1, h2.1, h2.2⟩

theorem containing_none {rs : List Region} {p : Int}
    (h : find_region_containing rs p = none) :
    ∀ r ∈ rs, ¬(r.data ≤ p ∧ p < r.top) := by
  intro r hr
  have := findIdxO_none_iff.mp h r hr
  simpa [Region.containsPtr] using this

/-- Under the invariant the containing search finds exactly the Region
whose used part `[data, top)` contains `p`. -/
theorem containing_eq_of_inv {rs : List Region} (hE : EInv rs) {i : Nat} {p : Int}
    (hi : i < rs.length)
    (h1 : (rs.getD i default).data ≤ p) (h2 : p < (rs.getD i default).top) :
    find_region_containing rs p = some i := by
  apply findIdxO_some_iff.mpr
  refine ⟨hi, by simp only [Region.containsPtr, decide_eq_true_eq]; exact ⟨h1, h2⟩, ?_⟩
  intro j hj
  have hji : j < rs.length := lt_trans hj hi
  have hd := hE.disj j i hji hi (by omega)
  have hub := hE.size_ub _ (getD_mem hi default)
  have hub' := hE.size_ub _ (getD_mem hji default)
  simp only [Region.containsPtr, decide_eq_false_iff_not]
  rintro ⟨ha, hb⟩
  simp only [RangeDisj, Region.endp, Region.top] at hd h2 hb ⊢
  omega

theorem fitting_some {rs : List Region} {n : Nat} {hint : Int} {i : Nat}
    (h : find_region_fitting rs n hint = some i) :
    i < rs.length ∧ (rs.getD i default).fits n = true := by
  unfold find_region_fitting at h
  rcases hc : (if hint ≠ 0 then find_region_containing rs hint else none) with _ | j
  · rw [hc] at h
    rcases findIdxO_some_iff.mp h with ⟨h1, h2, _⟩
    exact ⟨h1, h2⟩
  · rw [hc] at h
    dsimp only at h
    by_cases hf : (rs.getD j default).fits n = true
    · rw [if_pos hf] at h
      have hij : j = i := by injection h
      subst hij
      have hj : j < rs.length := by
        by_cases hh : hint ≠ 0
        · rw [if_pos hh] at hc
          exact (containing_some hc).1
        · rw [if_neg hh] at hc
          cases hc
      exact ⟨hj, hf⟩
    · rw [if_neg hf] at h
      rcases findIdxO_some_iff.mp h with ⟨h1, h2, _⟩
      exact ⟨h1, h2⟩

theorem fits_iff {r : Region} {n : Nat} :
    r.fits n = true ↔ r.size + n < r.capacity := by
  simp only [Region.fits, Region.top, Region.endp, decide_eq_true_eq]
  omega

/-! ### Preservation of the engine invariant -/

theorem einv_set {rs : List Region} {i : Nat} {r2 : Region} (hE : EInv rs)
    (hi : i < rs.length)
    (hdata : r2.data = (rs.getD i default).data)
    (hcap : r2.capacity = (rs.getD i default).capacity)
    (hlb : 0 ≤ r2.size) (hub : r2.size ≤ r2.capacity)
    (hocc : r2.refCount = 0 → r2.size = 0) (hrc : 0 ≤ r2.refCount) :
    EInv (rs.set i r2) := by
  have hmem : ∀ r' ∈ rs.set i r2, r' ∈ rs ∨ r' = r2 := by
    intro r' hr'
    exact List.mem_or_eq_of_mem_set hr'
  constructor
  · intro a b ha hb hab
    rw [List.length_set] at ha hb
    have key : ∀ k, k < rs.length →
        ((rs.set i r2).getD k default).data = (rs.getD k default).data ∧
        ((rs.set i r2).getD k default).capacity = (rs.getD k default).capacity := by
      intro k hk
      by_cases hki : i = k
      · subst hki
        rw [getD_set_self hk]
        exact ⟨hdata, hcap⟩
      · rw [getD_set_ne hki]
        exact ⟨rfl, rfl⟩
    have hd := hE.disj a b ha hb hab
    rcases key a ha with ⟨ka1, ka2⟩
    rcases key b hb with ⟨kb1, kb2⟩
    simp only [RangeDisj, Region.endp] at hd ⊢
    rw [ka1, ka2, kb1, kb2]
    exact hd
  · intro r' hr'
    rcases hmem r' hr' with h | h
    · exact hE.pos r' h
    · subst h
      rw [hdata]
      exact hE.pos _ (getD_mem hi default)
  · intro r' hr'
    rcases hmem r' hr' with h | h
    · exact hE.size_lb r' h
    · subst h; exact hlb
  · intro r' hr'
    rcases hmem r' hr' with h | h
    · exact hE.size_ub r' h
    · subst h; exact hub
  · intro r' hr'
    rcases hmem r' hr' with h | h
    · exact hE.occ0 r' h
    · subst h; exact hocc
  · intro r' hr'
    rcases hmem r' hr' with h | h
    · exact hE.rc_nn r' h
    · subst h; exact hrc

theorem einv_append {rs : List Region} {r2 : Region} (hE : EInv rs)
    (hdisj : ∀ r ∈ rs, r2.endp ≤ r.data ∨ r.endp ≤ r2.data)
    (hpos : 0 < r2.data) (hlb : 0 ≤ r2.size) (hub : r2.size ≤ r2.capacity)
    (hocc : r2.refCount = 0 → r2.size = 0) (hrc : 0 ≤ r2.refCount) :
    EInv (rs ++ [r2]) := by
  have hmem : ∀ r' ∈ rs ++ [r2], r' ∈ rs ∨ r' = r2 := by
    intro r' hr'
    rcases List.mem_append.mp hr' with h | h
    · exact Or.inl h
    · exact Or.inr (List.mem_singleton.mp h)
  constructor
  · intro a b ha hb hab
    rw [List.length_append, List.length_singleton] at ha hb
    rcases Nat.lt_succ_iff_lt_or_eq.mp ha with ha' | ha' <;>
      rcases Nat.lt_succ_iff_lt_or_eq.mp hb with hb' | hb'
    · rw [getD_append_left ha', getD_append_left hb']
      exact hE.disj a b ha' hb' hab
    · subst hb'
      rw [getD_append_left ha', getD_append_last]
      rcases hdisj _ (getD_mem ha' default) with h | h
      · exact Or.inr h
      · exact Or.inl h
    · subst ha'
      rw [getD_append_left hb', getD_append_last]
      exact hdisj _ (getD_mem hb' default)
    · omega
  · intro r' hr'
    rcases hmem r' hr' with h | h
    · exact hE.pos r' h
    · subst h; exact hpos
  · intro r' hr'
    rcases hmem r' hr' with h | h
    · exact hE.size_lb r' h
    · subst h; exact hlb
  · intro r' hr'
    rcases hmem r' hr' with h | h
    · exact hE.size_ub r' h
    · subst h; exact hub
  · intro r' hr'
    rcases hmem r' hr' with h | h
    · exact hE.occ0 r' h
    · subst h; exact hocc
  · intro r' hr'
    rcases hmem r' hr' with h | h
    · exact hE.rc_nn r' h
    · subst h; exact hrc

theorem freshBase_pos (rs : List Region) : 1 ≤ freshBase rs := by
  induction rs with
  | nil => simp [freshBase]
  | cons r t ih =>
    have : freshBase (r :: t) = max (freshBase t) r.endp := rfl
    rw [this]
    exact le_trans ih (le_max_left _ _)

theorem freshBase_ge {rs : List Region} {r : Region} (hr : r ∈ rs) :
    r.endp ≤ freshBase rs := by
  induction rs with
  | nil => simp at hr
  | cons x t ih =>
    have hfb : freshBase (x :: t) = max (freshBase t) x.endp := rfl
    rw [hfb]
    rcases List.mem_cons.mp hr with h | h
    · subst h; exact le_max_right _ _
    · exact le_trans (ih h) (le_max_left _ _)

theorem validProvider_std : ValidProvider stdProvider := by
  intro rs cap
  refine ⟨lt_of_lt_of_le one_pos (freshBase_pos rs), ?_⟩
  intro r hr
  exact Or.inr (freshBase_ge hr)

theorem einv_allocP {P : Provider} {rs : List Region} {n : Nat} {hint : Int}
    (hP : ValidProvider P) (hE : EInv rs) : EInv (allocateP P rs n hint).2 := by
  unfold allocateP
  rcases hf : find_region_fitting rs n hint with _ | i
  · dsimp only
    rcases hP rs (capOf n) with ⟨hpos, hdisj⟩
    apply einv_append hE
    · intro r hr
      rcases hdisj r hr with h | h
      · exact Or.inl (by simpa [Region.construct, Region.resize, Region.ref, Region.endp] using h)
      · exact Or.inr (by simpa [Region.construct, Region.resize, Region.ref, Region.endp] using h)
    · simpa [Region.construct, Region.resize, Region.ref] using hpos
    · simp [Region.construct, Region.resize, Region.ref]
    · simp only [Region.construct, Region.resize, Region.ref, capOf]
      simp
    · simp [Region.construct, Region.resize, Region.ref]
    · simp [Region.construct, Region.resize, Region.ref]
  · dsimp only
    obtain ⟨hi, hfit⟩ := fitting_some hf
    have hmem := getD_mem (l := rs) hi default
    have hub := fits_iff.mp hfit
    have hlb := hE.size_lb _ hmem
    have hrc := hE.rc_nn _ hmem
    apply einv_set hE hi
    · rfl
    · rfl
    · simp only [Region.resize, Region.ref]
      omega
    · simp only [Region.resize, Region.ref]
      omega
    · simp only [Region.resize, Region.ref]
      omega
    · simp only [Region.resize, Region.ref]
      omega

theorem einv_dealloc {rs : List Region} {p : Int} {n : Nat} (hE : EInv rs) :
    EInv (deallocate rs p n) := by
  unfold deallocate
  rcases hc : find_region_containing rs p with _ | i
  · exact hE
  · dsimp only
    obtain ⟨hi, hd, ht⟩ := containing_some hc
    have hmem := getD_mem (l := rs) hi default
    have hlb := hE.size_lb _ hmem
    have hub := hE.size_ub _ hmem
    have hrcn := hE.rc_nn _ hmem
    have hsz : 0 < (rs.getD i default).size := by
      simp only [Region.top] at ht
      omega
    have hrc1 : 1 ≤ (rs.getD i default).refCount := by
      rcases eq_or_lt_of_le hrcn with heq | hlt
      · exact absurd (hE.occ0 _ hmem heq.symm) (by omega)
      · omega
    by_cases hu : ((rs.getD i default).unref.unused = true)
    · rw [if_pos hu]
      simp only [Region.unused, Region.unref, beq_iff_eq] at hu
      apply einv_set hE hi
      · rfl
      · rfl
      · simp [Region.clear, Region.unref]
      · simp only [Region.clear, Region.unref]
        omega
      · simp [Region.clear, Region.unref]
      · simp only [Region.clear, Region.unref]
        omega
    · rw [if_neg hu]
      simp only [Region.unused, Region.unref, beq_iff_eq] at hu
      by_cases hp : (rs.getD i default).unref.top - (n : Int) = p
      · rw [if_pos hp]
        simp only [Region.top, Region.unref] at hp ht
        apply einv_set hE hi
        · rfl
        · rfl
        · simp only [Region.resize, Region.unref]
          omega
        · simp only [Region.resize, Region.unref]
          omega
        · simp only [Region.resize, Region.unref]
          intro habs
          exact absurd habs hu
        · simp only [Region.resize, Region.unref]
          omega
      · rw [if_neg hp]
        apply einv_set hE hi
        · rfl
        · rfl
        · simp only [Region.unref]
          omega
        · simp only [Region.unref]
          omega
        · simp only [Region.unref]
          intro habs
          exact absurd habs hu
        · simp only [Region.unref]
          omega

theorem einv_reallocP {P : Provider} {rs : List Region} {p : Int}
    {from_n to_n : Nat} {hint : Int} (hP : ValidProvider P) (hE : EInv rs) :
    EInv (reallocateP P rs p from_n to_n hint).2 := by
  unfold reallocateP
  by_cases hp : p = 0
  · rw [if_pos hp]
    exact einv_allocP hP hE
  · rw [if_neg hp]
    rcases hc : find_region_containing rs p with _ | i
    · exact hE
    · dsimp only
      by_cases ht0 : to_n = 0
      · rw [if_pos ht0]
        exact einv_dealloc hE
      · rw [if_neg ht0]
        obtain ⟨hi, hd, ht⟩ := containing_some hc
        have hmem := getD_mem (l := rs) hi default
        have hlb := hE.size_lb _ hmem
        have hub := hE.size_ub _ hmem
        have hrcn := hE.rc_nn _ hmem
        have hsz : 0 < (rs.getD i default).size := by
          simp only [Region.top] at ht
          omega
        by_cases hip : (rs.getD i default).top - (from_n : Int) = p ∧
            (rs.getD i default).top + ((to_n : Int) - (from_n : Int)) <
              (rs.getD i default).endp
        · rw [if_pos hip]
          obtain ⟨hip1, hip2⟩ := hip
          simp only [Region.top, Region.endp] at hip1 hip2
          apply einv_set hE hi
          · rfl
          · rfl
          · simp only [Region.resize]
            omega
          · simp only [Region.resize]
            omega
          · simp only [Region.resize]
            intro habs
            exfalso
            have hocc := hE.occ0 _ hmem habs
            omega
          · simp only [Region.resize]
            omega
        · rw [if_neg hip]
          by_cases hle : to_n ≤ from_n
          · rw [if_pos hle]
            exact hE
          · rw [if_neg hle]
            exact einv_dealloc (einv_allocP hP hE)

theorem inv_nil : Inv ⟨[], []⟩ := by
  refine ⟨einv_nil, ?_, ?_, ?_, ?_⟩ <;> simp

theorem Inv.mk' {rs : List Region} {L : List (Int × Nat)}
    (einv : EInv rs)
    (rc_count : ∀ i, i < rs.length →
      (rs.getD i default).refCount = (L.countP (belongs (rs.getD i default)) : Int))
    (live_in : ∀ q ∈ L, ∃ i, i < rs.length ∧
      (rs.getD i default).data ≤ q.1 ∧
      q.1 + (q.2 : Int) ≤ (rs.getD i default).top)
    (live_pos : ∀ q ∈ L, 0 < q.2)
    (live_disj : L.Pairwise SpanDisj) : Inv ⟨rs, L⟩ :=
  ⟨einv, rc_count, live_in, live_pos, live_disj⟩

theorem countP_mem_erase {α : Type} [BEq α] [LawfulBEq α] {l : List α} {a : α}
    (h : a ∈ l) (p : α → Bool) :
    l.countP p = (l.erase a).countP p + (if p a then 1 else 0) := by
  induction l with
  | nil => simp at h
  | cons x t ih =>
    by_cases hx : x = a
    · subst hx
      rw [List.erase_cons_head, List.countP_cons]
    · have ha : a ∈ t := by
        rcases List.mem_cons.mp h with h' | h'
        · exact absurd h'.symm hx
        · exact h'
      have he : (x :: t).erase a = x :: t.erase a := by
        rw [List.erase_cons]
        simp [hx]
      rw [he, List.countP_cons, List.countP_cons, ih ha]
      omega

theorem pairwise_rel_erase {α : Type} [BEq α] [LawfulBEq α] {R : α → α → Prop}
    (hs : ∀ x y, R x y → R y x) {l : List α} {a : α}
    (hp : l.Pairwise R) (ha : a ∈ l) : ∀ b ∈ l.erase a, R a b := by
  induction l with
  | nil => simp at ha
  | cons x t ih =>
    rcases List.pairwise_cons.mp hp with ⟨hx, ht⟩
    by_cases hxa : x = a
    · subst hxa
      rw [List.erase_cons_head]
      exact hx
    · have ha' : a ∈ t := by
        rcases List.mem_cons.mp ha with h' | h'
        · exact absurd h'.symm hxa
        · exact h'
      have he : (x :: t).erase a = x :: t.erase a := by
        rw [List.erase_cons]
        simp [hxa]
      rw [he]
      intro b hb
      rcases List.mem_cons.mp hb with h' | h'
      · subst h'
        exact hs _ _ (hx a ha')
      · exact ih ht ha' b h'

theorem belongs_true_of_span {rs : List Region} {j : Nat} (hE : EInv rs)
    (hj : j < rs.length) {q : Int × Nat}
    (h1 : (rs.getD j default).data ≤ q.1)
    (h2 : q.1 + (q.2 : Int) ≤ (rs.getD j default).top) (hq : 0 < q.2) :
    belongs (rs.getD j default) q = true := by
  have hub := hE.size_ub _ (getD_mem hj default)
  simp only [Region.top] at h2
  simp only [belongs, Region.inRange, Region.endp, decide_eq_true_eq]
  omega

theorem belongs_false_of_ne {rs : List Region} (hE : EInv rs) {j k : Nat}
    (hj : j < rs.length) (hk : k < rs.length) (hjk : j ≠ k) {q : Int × Nat}
    (hbj : belongs (rs.getD j default) q = true) :
    belongs (rs.getD k default) q = false := by
  have hd := hE.disj j k hj hk hjk
  simp only [belongs, Region.inRange, Region.endp, decide_eq_true_eq,
    RangeDisj] at hbj hd
  simp only [belongs, Region.inRange, Region.endp, decide_eq_false_iff_not]
  omega

theorem inv_alloc {g : GState} {n : Nat} {hint : Int} (hn : 0 < n) (hI : Inv g) :
    Inv ⟨(allocate g.regions n hint).2, ((allocate g.regions n hint).1, n) :: g.live⟩ ∧
      0 < (allocate g.regions n hint).1 ∧
      ∀ q ∈ g.live, SpanDisj ((allocate g.regions n hint).1, n) q := by
  obtain ⟨rs, L⟩ := g
  dsimp only at hI ⊢
  have hIe := hI.einv
  have hIrc := hI.rc_count
  have hIli := hI.live_in
  have hIlp := hI.live_pos
  have hIld := hI.live_disj
  dsimp only at hIe hIrc hIli hIlp hIld
  clear hI
  rcases hf : find_region_fitting rs n hint with _ | i
  · -- no Region fits: a fresh Region is created at a disjoint base
    have hred : allocate rs n hint =
        (freshBase rs, rs ++ [⟨capOf n, freshBase rs, (n : Int), 1⟩]) := by
      simp [allocate, allocateP, hf, Region.construct, stdProvider,
        Region.top, Region.resize, Region.ref]
    rw [hred]
    dsimp only
    have hfb1 : 1 ≤ freshBase rs := freshBase_pos rs
    have hcap : (4096 : Int) ≤ capOf n := le_max_left _ _
    have hcapn : (n : Int) ≤ capOf n := le_max_right _ _
    -- every live span ends at or before the fresh base
    have hlive_lt : ∀ q ∈ L, q.1 + (q.2 : Int) ≤ freshBase rs := by
      intro q hq
      obtain ⟨j, hj, h1, h2⟩ := hIli q hq
      have hub := hIe.size_ub _ (getD_mem hj default)
      have hge := freshBase_ge (getD_mem (l := rs) hj default)
      simp only [Region.top, Region.endp] at h2 hge
      omega
    have hdisj_new : ∀ q ∈ L, SpanDisj (freshBase rs, n) q := by
      intro q hq
      exact Or.inr (hlive_lt q hq)
    refine ⟨?_, by omega, hdisj_new⟩
    have hnew_belongs : belongs (⟨capOf n, freshBase rs, (n : Int), 1⟩ : Region)
        (freshBase rs, n) = true := by
      simp only [belongs, Region.inRange, Region.endp, decide_eq_true_eq]
      omega
    have hnew_not_old : ∀ k, k < rs.length →
        belongs (rs.getD k default) (freshBase rs, n) = false := by
      intro k hk
      have hge := freshBase_ge (getD_mem (l := rs) hk default)
      simp only [Region.endp] at hge
      simp only [belongs, Region.inRange, Region.endp, decide_eq_false_iff_not]
      omega
    have hold_not_new : ∀ q ∈ L,
        belongs (⟨capOf n, freshBase rs, (n : Int), 1⟩ : Region) q = false := by
      intro q hq
      have h1 := hlive_lt q hq
      have h2 := hIlp q hq
      simp only [belongs, Region.inRange, Region.endp, decide_eq_false_iff_not]
      omega
    constructor
    · -- engine invariant
      apply einv_append hIe
      · intro r hr
        have hge := freshBase_ge hr
        right
        simpa [Region.endp] using hge
      · dsimp only
        omega
      · dsimp only
        omega
      · dsimp only
        omega
      · intro h
        simp at h
      · dsimp only
        omega
    · -- occupancy counts live allocations
      intro k hk
      rw [List.length_append, List.length_singleton] at hk
      rcases Nat.lt_succ_iff_lt_or_eq.mp hk with hk' | hk'
      · rw [getD_append_left hk']
        rw [List.countP_cons, hnew_not_old k hk']
        simpa using hIrc k hk'
      · subst hk'
        rw [getD_append_last]
        rw [List.countP_cons, hnew_belongs]
        have hz : L.countP (belongs (⟨capOf n, freshBase rs, (n : Int), 1⟩ : Region)) = 0 := by
          rw [List.countP_eq_zero]
          intro q hq
          simp [hold_not_new q hq]
        rw [hz]
        simp
    · -- live spans lie in the used parts
      intro q hq
      rcases List.mem_cons.mp hq with h | h
      · subst h
        refine ⟨rs.length, by simp, ?_, ?_⟩
        · rw [getD_append_last]
        · rw [getD_append_last]
          simp [Region.top]
      · obtain ⟨j, hj, h1, h2⟩ := hIli q h
        exact ⟨j, by rw [List.length_append]; omega, by rwa [getD_append_left hj],
          by rwa [getD_append_left hj]⟩
    · -- live sizes positive
      intro q hq
      rcases List.mem_cons.mp hq with h | h
      · subst h; exact hn
      · exact hIlp q h
    · -- live spans pairwise disjoint
      exact List.pairwise_cons.mpr ⟨hdisj_new, hIld⟩
  · -- an existing Region fits
    obtain ⟨hi, hfit⟩ := fitting_some hf
    have hub := fits_iff.mp hfit
    have hlb := hIe.size_lb _ (getD_mem hi default)
    have hpos := hIe.pos _ (getD_mem hi default)
    have hred : allocate rs n hint =
        ((rs.getD i default).top,
          rs.set i (((rs.getD i default).resize (n : Int)).ref)) := by
      simp only [allocate, allocateP, hf]
    rw [hred]
    dsimp only
    have hbel_eq : belongs (((rs.getD i default).resize (n : Int)).ref) =
        belongs (rs.getD i default) := rfl
    have htop_pos : 0 < (rs.getD i default).top := by
      simp only [Region.top]
      omega
    have hnew_in_i : belongs (rs.getD i default) ((rs.getD i default).top, n) = true := by
      simp only [belongs, Region.inRange, Region.top, Region.endp, decide_eq_true_eq]
      omega
    have hdisj_new : ∀ q ∈ L, SpanDisj ((rs.getD i default).top, n) q := by
      intro q hq
      obtain ⟨j, hj, h1, h2⟩ := hIli q hq
      by_cases hij : j = i
      · subst hij
        exact Or.inr h2
      · have hd := hIe.disj i j hi hj (fun h => hij h.symm)
        have hubj := hIe.size_ub _ (getD_mem hj default)
        simp only [SpanDisj]
        simp only [RangeDisj, Region.endp, Region.top] at hd h2 ⊢
        omega
    refine ⟨?_, htop_pos, hdisj_new⟩
    constructor
    · apply einv_set hIe hi
      · rfl
      · rfl
      · simp only [Region.resize, Region.ref]
        omega
      · simp only [Region.resize, Region.ref]
        omega
      · simp only [Region.resize, Region.ref]
        have hrcn := hIe.rc_nn _ (getD_mem hi default)
        omega
      · simp only [Region.resize, Region.ref]
        have hrcn := hIe.rc_nn _ (getD_mem hi default)
        omega
    · intro k hk
      rw [List.length_set] at hk
      by_cases hki : k = i
      · subst hki
        rw [getD_set_self hk, hbel_eq]
        rw [List.countP_cons, hnew_in_i]
        have := hIrc k hk
        simp only [Region.resize, Region.ref]
        push_cast
        omega
      · rw [getD_set_ne (fun h => hki h.symm)]
        rw [List.countP_cons,
          belongs_false_of_ne hIe hi hk (fun h => hki h.symm) hnew_in_i]
        simpa using hIrc k hk
    · intro q hq
      rcases List.mem_cons.mp hq with h | h
      · subst h
        refine ⟨i, by rw [List.length_set]; exact hi, ?_, ?_⟩
        · rw [getD_set_self hi]
          simp only [Region.resize, Region.ref, Region.top]
          omega
        · rw [getD_set_self hi]
          simp only [Region.resize, Region.ref, Region.top]
          omega
      · obtain ⟨j, hj, h1, h2⟩ := hIli q h
        by_cases hji : j = i
        · subst hji
          refine ⟨j, by rw [List.length_set]; exact hj, ?_, ?_⟩
          · rw [getD_set_self hj]
            simpa only [Region.resize, Region.ref] using h1
          · rw [getD_set_self hj]
            simp only [Region.resize, Region.ref, Region.top] at h2 ⊢
            omega
        · refine ⟨j, by rw [List.length_set]; exact hj, ?_, ?_⟩
          · rwa [getD_set_ne (fun h' => hji h'.symm)]
          · rwa [getD_set_ne (fun h' => hji h'.symm)]
    · intro q hq
      rcases List.mem_cons.mp hq with h | h
      · subst h; exact hn
      · exact hIlp q h
    · exact List.pairwise_cons.mpr ⟨hdisj_new, hIld⟩

theorem spanDisj_symm : ∀ x y : Int × Nat, SpanDisj x y → SpanDisj y x := by
  intro x y hxy
  rcases hxy with h | h
  · exact Or.inr h
  · exact Or.inl h

theorem inv_dealloc {g : GState} {p : Int} {n : Nat} (hq : (p, n) ∈ g.live)
    (hI : Inv g) : Inv ⟨deallocate g.regions p n, g.live.erase (p, n)⟩ := by
  obtain ⟨rs, L⟩ := g
  dsimp only at hq ⊢
  have hIe := hI.einv
  have hIrc := hI.rc_count
  have hIli := hI.live_in
  have hIlp := hI.live_pos
  have hIld := hI.live_disj
  dsimp only at hIe hIrc hIli hIlp hIld
  clear hI
  obtain ⟨i, hi, h1, h2⟩ := hIli (p, n) hq
  have hnp : 0 < n := hIlp (p, n) hq
  have hlt : p < (rs.getD i default).top := by
    simp only [Region.top] at h2 ⊢
    omega
  have hc : find_region_containing rs p = some i := containing_eq_of_inv hIe hi h1 hlt
  have hbelp : belongs (rs.getD i default) (p, n) = true :=
    belongs_true_of_span hIe hi h1 h2 hnp
  have hcount := countP_mem_erase hq (belongs (rs.getD i default))
  rw [if_pos hbelp] at hcount
  have hcount_ne : ∀ k, k < rs.length → k ≠ i →
      L.countP (belongs (rs.getD k default)) =
        (L.erase (p, n)).countP (belongs (rs.getD k default)) := by
    intro k hk hki
    have hf : belongs (rs.getD k default) (p, n) = false :=
      belongs_false_of_ne hIe hi hk (fun h => hki h.symm) hbelp
    have h0 := countP_mem_erase hq (belongs (rs.getD k default))
    rw [hf] at h0
    simp only [Bool.false_eq_true, if_false] at h0
    omega
  have hss : ∀ q ∈ L.erase (p, n), SpanDisj (p, n) q :=
    pairwise_rel_erase spanDisj_symm hIld hq
  have hE2 := einv_dealloc (p := p) (n := n) hIe
  have hrmem := getD_mem (l := rs) hi default
  have hlb := hIe.size_lb _ hrmem
  have hub := hIe.size_ub _ hrmem
  have hszpos : 0 < (rs.getD i default).size := by
    simp only [Region.top] at hlt
    omega
  have hrci := hIrc i hi
  have hmem_erase : ∀ q ∈ L.erase (p, n), q ∈ L := by
    intro q hq'
    exact List.mem_of_mem_erase hq'
  have hpd : List.Pairwise SpanDisj (L.erase (p, n)) :=
    List.Pairwise.sublist (List.erase_sublist _ _) hIld
  by_cases hu : (rs.getD i default).unref.unused = true
  · -- occupancy hits zero: the Region is cleared
    have hred : deallocate rs p n = rs.set i (rs.getD i default).unref.clear := by
      simp only [deallocate, hc]
      rw [if_pos hu]
    rw [hred] at hE2 ⊢
    have hrc1 : (rs.getD i default).refCount = 1 := by
      simp only [Region.unused, Region.unref, beq_iff_eq] at hu
      omega
    have hcz : (L.erase (p, n)).countP (belongs (rs.getD i default)) = 0 := by
      omega
    have hnone : ∀ q ∈ L.erase (p, n), belongs (rs.getD i default) q = false := by
      intro q hq'
      have := List.countP_eq_zero.mp hcz q hq'
      simpa using this
    refine ⟨hE2, ?_, ?_, ?_, hpd⟩
    · intro k hk
      rw [List.length_set] at hk
      by_cases hki : k = i
      · subst hki
        rw [getD_set_self hk]
        have hbe : belongs (rs.getD k default).unref.clear = belongs (rs.getD k default) := rfl
        rw [hbe, hcz]
        simp only [Region.clear, Region.unref]
        omega
      · rw [getD_set_ne (fun h => hki h.symm)]
        rw [← hcount_ne k hk hki]
        exact hIrc k hk
    · intro q hq'
      obtain ⟨j, hj, hj1, hj2⟩ := hIli q (hmem_erase q hq')
      by_cases hji : j = i
      · subst hji
        exfalso
        have hb : belongs (rs.getD j default) q = true :=
          belongs_true_of_span hIe hj hj1 hj2 (hIlp q (hmem_erase q hq'))
        rw [hnone q hq'] at hb
        cases hb
      · exact ⟨j, by rw [List.length_set]; exact hj,
          by rwa [getD_set_ne (fun h => hji h.symm)],
          by rwa [getD_set_ne (fun h => hji h.symm)]⟩
    · intro q hq'
      exact hIlp q (hmem_erase q hq')
  · by_cases hp2 : (rs.getD i default).unref.top - (n : Int) = p
    · -- freed block was the top of its Region: shrink
      have hred : deallocate rs p n =
          rs.set i ((rs.getD i default).unref.resize (0 - (n : Int))) := by
        simp only [deallocate, hc]
        rw [if_neg hu, if_pos hp2]
      rw [hred] at hE2 ⊢
      have htop : (rs.getD i default).data + (rs.getD i default).size - (n : Int) = p := by
        simp only [Region.top, Region.unref] at hp2
        omega
      refine ⟨hE2, ?_, ?_, ?_, hpd⟩
      · intro k hk
        rw [List.length_set] at hk
        by_cases hki : k = i
        · subst hki
          rw [getD_set_self hk]
          have hbe : belongs ((rs.getD k default).unref.resize (0 - (n : Int))) =
              belongs (rs.getD k default) := rfl
          rw [hbe]
          simp only [Region.resize, Region.unref]
          omega
        · rw [getD_set_ne (fun h => hki h.symm)]
          rw [← hcount_ne k hk hki]
          exact hIrc k hk
      · intro q hq'
        obtain ⟨j, hj, hj1, hj2⟩ := hIli q (hmem_erase q hq')
        by_cases hji : j = i
        · subst hji
          refine ⟨j, by rw [List.length_set]; exact hj, ?_, ?_⟩
          · rw [getD_set_self hj]
            simpa only [Region.resize, Region.unref] using hj1
          · rw [getD_set_self hj]
            have hqpos := hIlp q (hmem_erase q hq')
            have hcase := hss q hq'
            simp only [SpanDisj] at hcase
            simp only [Region.top, Region.resize, Region.unref] at hj2 hcase htop ⊢
            omega
        · exact ⟨j, by rw [List.length_set]; exact hj,
            by rwa [getD_set_ne (fun h => hji h.symm)],
            by rwa [getD_set_ne (fun h => hji h.symm)]⟩
      · intro q hq'
        exact hIlp q (hmem_erase q hq')
    · -- interior free: the size is unchanged
      have hred : deallocate rs p n = rs.set i (rs.getD i default).unref := by
        simp only [deallocate, hc]
        rw [if_neg hu, if_neg hp2]
      rw [hred] at hE2 ⊢
      refine ⟨hE2, ?_, ?_, ?_, hpd⟩
      · intro k hk
        rw [List.length_set] at hk
        by_cases hki : k = i
        · subst hki
          rw [getD_set_self hk]
          have hbe : belongs (rs.getD k default).unref = belongs (rs.getD k default) := rfl
          rw [hbe]
          simp only [Region.unref]
          omega
        · rw [getD_set_ne (fun h => hki h.symm)]
          rw [← hcount_ne k hk hki]
          exact hIrc k hk
      · intro q hq'
        obtain ⟨j, hj, hj1, hj2⟩ := hIli q (hmem_erase q hq')
        by_cases hji : j = i
        · subst hji
          refine ⟨j, by rw [List.length_set]; exact hj, ?_, ?_⟩
          · rw [getD_set_self hj]
            simpa only [Region.unref] using hj1
          · rw [getD_set_self hj]
            simp only [Region.top, Region.unref] at hj2 ⊢
            omega
        · exact ⟨j, by rw [List.length_set]; exact hj,
            by rwa [getD_set_ne (fun h => hji h.symm)],
            by rwa [getD_set_ne (fun h => hji h.symm)]⟩
      · intro q hq'
        exact hIlp q (hmem_erase q hq')

theorem inv_realloc {g : GState} {p : Int} {from_n to_n : Nat} {hint : Int}
    (hq : (p, from_n) ∈ g.live) (hI : Inv g) :
    Inv ⟨(reallocate g.regions p from_n to_n hint).2,
         if to_n = 0 then g.live.erase (p, from_n)
         else ((reallocate g.regions p from_n to_n hint).1, to_n) ::
           g.live.erase (p, from_n)⟩ := by
  obtain ⟨rs, L⟩ := g
  dsimp only at hq ⊢
  have hIe := hI.einv
  have hIrc := hI.rc_count
  have hIli := hI.live_in
  have hIlp := hI.live_pos
  have hIld := hI.live_disj
  dsimp only at hIe hIrc hIli hIlp hIld
  obtain ⟨i, hi, h1, h2⟩ := hIli (p, from_n) hq
  have hnp : 0 < from_n := hIlp (p, from_n) hq
  have hrmem := getD_mem (l := rs) hi default
  have hlb := hIe.size_lb _ hrmem
  have hub := hIe.size_ub _ hrmem
  have hpos := hIe.pos _ hrmem
  have hlt : p < (rs.getD i default).top := by
    simp only [Region.top] at h2 ⊢
    omega
  have hp0 : ¬p = 0 := by
    have : (rs.getD i default).data ≤ p := h1
    omega
  have hc : find_region_containing rs p = some i := containing_eq_of_inv hIe hi h1 hlt
  have hbelp : belongs (rs.getD i default) (p, from_n) = true :=
    belongs_true_of_span hIe hi h1 h2 hnp
  have hcount := countP_mem_erase hq (belongs (rs.getD i default))
  rw [if_pos hbelp] at hcount
  have hcount_ne : ∀ k, k < rs.length → k ≠ i →
      L.countP (belongs (rs.getD k default)) =
        (L.erase (p, from_n)).countP (belongs (rs.getD k default)) := by
    intro k hk hki
    have hf : belongs (rs.getD k default) (p, from_n) = false :=
      belongs_false_of_ne hIe hi hk (fun h => hki h.symm) hbelp
    have h0 := countP_mem_erase hq (belongs (rs.getD k default))
    rw [hf] at h0
    simp only [Bool.false_eq_true, if_false] at h0
    omega
  have hss : ∀ q ∈ L.erase (p, from_n), SpanDisj (p, from_n) q :=
    pairwise_rel_erase spanDisj_symm hIld hq
  have hmem_erase : ∀ q ∈ L.erase (p, from_n), q ∈ L := by
    intro q hq'
    exact List.mem_of_mem_erase hq'
  have hpd : List.Pairwise SpanDisj (L.erase (p, from_n)) :=
    List.Pairwise.sublist (List.erase_sublist _ _) hIld
  by_cases ht0 : to_n = 0
  · -- to_n == 0: behaves as deallocate
    rw [if_pos ht0]
    have hred : reallocate rs p from_n to_n hint = (0, deallocate rs p from_n) := by
      simp only [reallocate, reallocateP, if_neg hp0, hc, if_pos ht0]
    rw [hred]
    exact inv_dealloc hq hI
  · rw [if_neg ht0]
    have htn : 0 < to_n := Nat.pos_of_ne_zero ht0
    by_cases hip : (rs.getD i default).top - (from_n : Int) = p ∧
        (rs.getD i default).top + ((to_n : Int) - (from_n : Int)) < (rs.getD i default).endp
    · -- in-place growth or shrink at the top
      have hred : reallocate rs p from_n to_n hint =
          (p, rs.set i ((rs.getD i default).resize ((to_n : Int) - (from_n : Int)))) := by
        simp only [reallocate, reallocateP, if_neg hp0, hc, if_neg ht0, if_pos hip]
      rw [hred]
      dsimp only
      obtain ⟨hip1, hip2⟩ := hip
      have htop : (rs.getD i default).data + (rs.getD i default).size - (from_n : Int) = p := by
        simp only [Region.top] at hip1
        omega
      have hfit2 : (rs.getD i default).size + ((to_n : Int) - (from_n : Int)) <
          (rs.getD i default).capacity := by
        simp only [Region.top, Region.endp] at hip2
        omega
      have hE2 : EInv (reallocate rs p from_n to_n hint).2 :=
        einv_reallocP validProvider_std hIe
      rw [hred] at hE2
      dsimp only at hE2
      have hbel2 : belongs (rs.getD i default) (p, to_n) = true := hbelp
      have hdisj_new : ∀ q ∈ L.erase (p, from_n), SpanDisj (p, to_n) q := by
        intro q hq'
        obtain ⟨j, hj, hj1, hj2⟩ := hIli q (hmem_erase q hq')
        have hqpos := hIlp q (hmem_erase q hq')
        by_cases hji : j = i
        · subst hji
          have hcase := hss q hq'
          simp only [SpanDisj] at hcase ⊢
          simp only [Region.top] at hj2
          omega
        · have hd := hIe.disj i j hi hj (fun h => hji h.symm)
          have hubj := hIe.size_ub _ (getD_mem hj default)
          simp only [SpanDisj]
          simp only [RangeDisj, Region.endp, Region.top] at hd hj2 ⊢
          omega
      refine Inv.mk' hE2 ?_ ?_ ?_ ?_
      · intro k hk
        rw [List.length_set] at hk
        by_cases hki : k = i
        · subst hki
          rw [getD_set_self hk]
          have hbe : belongs ((rs.getD k default).resize ((to_n : Int) - (from_n : Int))) =
              belongs (rs.getD k default) := rfl
          rw [hbe, List.countP_cons, hbel2]
          have := hIrc k hk
          simp only [Region.resize]
          push_cast
          omega
        · rw [getD_set_ne (fun h => hki h.symm)]
          rw [List.countP_cons,
            show belongs (rs.getD k default) (p, to_n) = false from
              belongs_false_of_ne hIe hi hk (fun h => hki h.symm) hbelp]
          rw [← hcount_ne k hk hki]
          simpa using hIrc k hk
      · intro q hq'
        rcases List.mem_cons.mp hq' with h | h
        · subst h
          refine ⟨i, by rw [List.length_set]; exact hi, ?_, ?_⟩
          · rw [getD_set_self hi]
            simpa only [Region.resize] using h1
          · rw [getD_set_self hi]
            simp only [Region.resize, Region.top]
            omega
        · obtain ⟨j, hj, hj1, hj2⟩ := hIli q (hmem_erase q h)
          have hqpos := hIlp q (hmem_erase q h)
          by_cases hji : j = i
          · subst hji
            refine ⟨j, by rw [List.length_set]; exact hj, ?_, ?_⟩
            · rw [getD_set_self hj]
              simpa only [Region.resize] using hj1
            · rw [getD_set_self hj]
              have hcase := hss q h
              simp only [SpanDisj] at hcase
              simp only [Region.top, Region.resize] at hj2 ⊢
              omega
          · exact ⟨j, by rw [List.length_set]; exact hj,
              by rwa [getD_set_ne (fun h' => hji h'.symm)],
              by rwa [getD_set_ne (fun h' => hji h'.symm)]⟩
      · intro q hq'
        rcases List.mem_cons.mp hq' with h | h
        · subst h; exact htn
        · exact hIlp q (hmem_erase q h)
      · exact List.pairwise_cons.mpr ⟨hdisj_new, hpd⟩
    · by_cases hle : to_n ≤ from_n
      · -- shrink of a non-top block: the state is unchanged
        have hred : reallocate rs p from_n to_n hint = (p, rs) := by
          simp only [reallocate, reallocateP, if_neg hp0, hc, if_neg ht0, if_neg hip,
            if_pos hle]
        rw [hred]
        dsimp only
        have hbel2 : belongs (rs.getD i default) (p, to_n) = true := hbelp
        have h2' : p + (to_n : Int) ≤ (rs.getD i default).top := by
          simp only [Region.top] at h2 ⊢
          omega
        have hdisj_new : ∀ q ∈ L.erase (p, from_n), SpanDisj (p, to_n) q := by
          intro q hq'
          have hcase := hss q hq'
          simp only [SpanDisj] at hcase ⊢
          omega
        refine Inv.mk' hIe ?_ ?_ ?_ ?_
        · intro k hk
          by_cases hki : k = i
          · subst hki
            rw [List.countP_cons, hbel2, if_pos rfl]
            have := hIrc k hk
            push_cast
            omega
          · rw [List.countP_cons,
              show belongs (rs.getD k default) (p, to_n) = false from
                belongs_false_of_ne hIe hi hk (fun h => hki h.symm) hbelp]
            rw [← hcount_ne k hk hki]
            simpa using hIrc k hk
        · intro q hq'
          rcases List.mem_cons.mp hq' with h | h
          · subst h
            exact ⟨i, hi, h1, h2'⟩
          · exact hIli q (hmem_erase q h)
        · intro q hq'
          rcases List.mem_cons.mp hq' with h | h
          · subst h; exact htn
          · exact hIlp q (hmem_erase q h)
        · exact List.pairwise_cons.mpr ⟨hdisj_new, hpd⟩
      · -- growth that cannot happen in place: allocate, copy, free
        have hred : reallocate rs p from_n to_n hint =
            ((allocate rs to_n hint).1,
              deallocate (allocate rs to_n hint).2 p from_n) := by
          simp only [reallocate, reallocateP, if_neg hp0, hc, allocate, if_neg ht0,
            if_neg hip, if_neg hle]
        rw [hred]
        dsimp only
        obtain ⟨hI1, hq0pos, hq0disj⟩ := @inv_alloc ⟨rs, L⟩ to_n hint htn hI
        dsimp only at hI1 hq0disj
        have hne : ((allocate rs to_n hint).1, to_n) ≠ (p, from_n) := by
          intro hcontra
          have hdd := hq0disj (p, from_n) hq
          simp only [SpanDisj] at hdd
          rw [Prod.mk.injEq] at hcontra
          omega
        have hqmem1 : (p, from_n) ∈ ((allocate rs to_n hint).1, to_n) :: L :=
          List.mem_cons_of_mem _ hq
        have hI2 := inv_dealloc (g := ⟨(allocate rs to_n hint).2,
          ((allocate rs to_n hint).1, to_n) :: L⟩) hqmem1 hI1
        dsimp only at hI2
        have herase : (((allocate rs to_n hint).1, to_n) :: L).erase (p, from_n) =
            ((allocate rs to_n hint).1, to_n) :: L.erase (p, from_n) := by
          rw [List.erase_cons]
          simp [hne]
        rw [herase] at hI2
        exact hI2

theorem inv_reachable {g : GState} (hg : Reachable g) : Inv g := by
  induction hg with
  | init => exact inv_nil
  | alloc n hint hn hg ih => exact (inv_alloc hn ih).1
  | dealloc p n hq hg ih => exact inv_dealloc hq ih
  | realloc p from_n to_n hint hq hg ih => exact inv_realloc hq ih

/-! ### The stated properties -/

/-- C1: for every `n > 0` and every engine state reachable by a
well-formed call sequence, `allocate (n, hint)` returns a non-null
pointer whose `n`-byte span does not overlap the span of any other
currently-live allocation. -/
theorem C1_allocate_nonnull_disjoint {g : GState} (hg : Reachable g) {n : Nat}
    (hn : 0 < n) (hint : Int) :
    (allocate g.regions n hint).1 ≠ 0 ∧
    ∀ q ∈ g.live, (allocate g.regions n hint).1 + (n : Int) ≤ q.1 ∨
      q.1 + (q.2 : Int) ≤ (allocate g.regions n hint).1 := by
  obtain ⟨_, hpos, hdisj⟩ := @inv_alloc g n hint hn (inv_reachable hg)
  refine ⟨by omega, ?_⟩
  intro q hq
  exact hdisj q hq

theorem C1_witness :
    (allocate (allocate [] 5 0).2 3 0).1 ≠ 0 ∧
    ((allocate (allocate [] 5 0).2 3 0).1 + ((3 : Nat) : Int) ≤ (allocate [] 5 0).1 ∨
      (allocate [] 5 0).1 + ((5 : Nat) : Int) ≤ (allocate (allocate [] 5 0).2 3 0).1) := by
  have h := C1_allocate_nonnull_disjoint
    (Reachable.alloc (g := ⟨[], []⟩) 5 0 (by decide) Reachable.init) (by decide : 0 < 3) 0
  exact ⟨h.1, h.2 ((allocate [] 5 0).1, 5) (by exact List.mem_cons_self _ _)⟩

/-- C2 (code bug, evaluated at the failing input): the claim and the
header documentation say `reallocate (p, from_n, 0, hint)` returns
null for every `p` including null, but for `p = null` the code
forwards to `allocate (0, hint)`, which has no zero-size guard: from
the empty engine `reallocate (null, 5, 0, null)` creates a Region,
returns its base address 1 (non-null) and leaves occupancy 1. -/
theorem C2_realloc_null_zero_returns_nonnull :
    (reallocate [] 0 5 0 0).1 = 1 ∧ ¬(reallocate [] 0 5 0 0).1 = 0 ∧
    (reallocate [] 0 5 0 0).2 = [⟨4096, 1, 0, 1⟩] := by decide

/-- C3 counterexample: a Region whose remaining capacity is exactly
`n` (here `end - top = 1` and `n = 1`, so `end() - top() ≥ n` holds)
is rejected by the strict fit test, and `allocate (1, hint = p)`
creates a second Region at a fresh address instead of using `p`'s. -/
theorem C3_counterexample :
    ((allocate [] 4095 0).2.getD 0 default).endp -
        ((allocate [] 4095 0).2.getD 0 default).top = 1 ∧
    (allocate [] 4095 0).1 = 1 ∧
    (allocate (allocate [] 4095 0).2 1 1).1 = 4097 ∧
    (allocate (allocate [] 4095 0).2 1 1).2.length = 2 := by decide

/-- C3 amended: if the Region containing the non-null hint `p` has
strictly more than `n` bytes of remaining capacity
(`top() + n < end()`), then `allocate (n, hint = p)` places the new
allocation in that same Region: it returns that Region's `top()` and
only grows that Region, creating nothing. -/
theorem C3_amended_hint_locality {rs : List Region} {p : Int} {i : Nat} {n : Nat}
    (hp : p ≠ 0) (hc : find_region_containing rs p = some i)
    (hfit : (rs.getD i default).top + (n : Int) < (rs.getD i default).endp) :
    (allocate rs n p).1 = (rs.getD i default).top ∧
    (allocate rs n p).2 = rs.set i (((rs.getD i default).resize (n : Int)).ref) := by
  have hfit' : (rs.getD i default).fits (n : Int) = true := by
    simp only [Region.fits, decide_eq_true_eq]
    exact hfit
  have hfind : find_region_fitting rs n p = some i := by
    unfold find_region_fitting
    rw [if_pos hp, hc]
    dsimp only
    rw [if_pos hfit']
  simp only [allocate, allocateP, hfind]
  exact ⟨trivial, trivial⟩

theorem C3_amended_witness :
    (allocate [⟨4096, 1, 5, 1⟩] 3 1).1 = (([⟨4096, 1, 5, 1⟩] :
        List Region).getD 0 default).top ∧
    (allocate [⟨4096, 1, 5, 1⟩] 3 1).2 = [⟨4096, 1, 5, 1⟩].set 0
      ((([⟨4096, 1, 5, 1⟩] : List Region).getD 0 default).resize ((3 : Nat) : Int)).ref :=
  C3_amended_hint_locality (by decide) (by decide) (by decide)

/-- C5: along every well-formed call sequence, every Region satisfies
`0 ≤ size ≤ capacity` and `occupancy ≥ 0` (in the exact-integer sense:
the machine's unsigned fields never wrap). -/
theorem C5_region_bounds {g : GState} (hg : Reachable g) :
    ∀ r ∈ g.regions, 0 ≤ r.size ∧ r.size ≤ r.capacity ∧ 0 ≤ r.refCount := by
  have hI := inv_reachable hg
  intro r hr
  exact ⟨hI.einv.size_lb r hr, hI.einv.size_ub r hr, hI.einv.rc_nn r hr⟩

theorem C5_witness :
    0 ≤ (Region.mk 4096 1 5 1).size ∧ (Region.mk 4096 1 5 1).size ≤
      (Region.mk 4096 1 5 1).capacity ∧ 0 ≤ (Region.mk 4096 1 5 1).refCount :=
  C5_region_bounds (Reachable.alloc (g := ⟨[], []⟩) 5 0 (by decide) Reachable.init)
    ⟨4096, 1, 5, 1⟩ (by decide)

/-- C6: `deallocate (p, n)` is a no-op for null `p` (no Region sits at
address 0); when `p` lies in a Region it decrements that Region's
occupancy, resets the size to 0 if the occupancy reaches 0, shrinks
the size by `n` if the freed block ends exactly at the top
(`top() - n == p`), and otherwise leaves the size unchanged; base,
capacity, and all other Regions are untouched. -/
theorem C6_deallocate_behaviour {rs : List Region} (p : Int) (n : Nat)
    (hpos : ∀ r ∈ rs, 0 < r.data) :
    deallocate rs 0 n = rs ∧
    ∀ i, find_region_containing rs p = some i →
      (deallocate rs p n).length = rs.length ∧
      ((deallocate rs p n).getD i default).refCount =
        (rs.getD i default).refCount - 1 ∧
      ((deallocate rs p n).getD i default).size =
        (if (rs.getD i default).refCount - 1 = 0 then 0
         else if (rs.getD i default).top - (n : Int) = p then
           (rs.getD i default).size - (n : Int)
         else (rs.getD i default).size) ∧
      ((deallocate rs p n).getD i default).data = (rs.getD i default).data ∧
      ((deallocate rs p n).getD i default).capacity =
        (rs.getD i default).capacity ∧
      ∀ j, j ≠ i → (deallocate rs p n).getD j default = rs.getD j default := by
  constructor
  · have hc : find_region_containing rs 0 = none := by
      apply findIdxO_none_iff.mpr
      intro r hr
      have := hpos r hr
      simp only [Region.containsPtr, decide_eq_false_iff_not]
      intro hcon
      omega
    simp [deallocate, hc]
  · intro i hci
    have hi : i < rs.length := (containing_some hci).1
    have hrw : deallocate rs p n = rs.set i
        (if (rs.getD i default).unref.unused = true then (rs.getD i default).unref.clear
         else if (rs.getD i default).unref.top - (n : Int) = p then
           (rs.getD i default).unref.resize (0 - (n : Int))
         else (rs.getD i default).unref) := by
      simp only [deallocate, hci]
    have hu : ((rs.getD i default).unref.unused = true) ↔
        ((rs.getD i default).refCount - 1 = 0) := by
      simp [Region.unused, Region.unref]
    have htp : ((rs.getD i default).unref.top - (n : Int) = p) ↔
        ((rs.getD i default).top - (n : Int) = p) := by
      simp [Region.top, Region.unref]
    rw [hrw]
    by_cases h0 : (rs.getD i default).refCount - 1 = 0
    · rw [if_pos (hu.mpr h0), if_pos h0]
      refine ⟨List.length_set .., ?_, ?_, ?_, ?_, ?_⟩
      · rw [getD_set_self hi]
        simp [Region.clear, Region.unref]
      · rw [getD_set_self hi]
        simp [Region.clear, Region.unref]
      · rw [getD_set_self hi]
        simp [Region.clear, Region.unref]
      · rw [getD_set_self hi]
        simp [Region.clear, Region.unref]
      · intro j hj
        rw [getD_set_ne (fun h => hj h.symm)]
    · rw [if_neg (fun h => h0 (hu.mp h)), if_neg h0]
      by_cases h1 : (rs.getD i default).top - (n : Int) = p
      · rw [if_pos (htp.mpr h1), if_pos h1]
        refine ⟨List.length_set .., ?_, ?_, ?_, ?_, ?_⟩
        · rw [getD_set_self hi]
          simp [Region.resize, Region.unref]
        · rw [getD_set_self hi]
          simp only [Region.resize, Region.unref]
          omega
        · rw [getD_set_self hi]
          simp [Region.resize, Region.unref]
        · rw [getD_set_self hi]
          simp [Region.resize, Region.unref]
        · intro j hj
          rw [getD_set_ne (fun h => hj h.symm)]
      · rw [if_neg (fun h => h1 (htp.mp h)), if_neg h1]
        refine ⟨List.length_set .., ?_, ?_, ?_, ?_, ?_⟩
        · rw [getD_set_self hi]
          simp [Region.unref]
        · rw [getD_set_self hi]
          simp [Region.unref]
        · rw [getD_set_self hi]
          simp [Region.unref]
        · rw [getD_set_self hi]
          simp [Region.unref]
        · intro j hj
          rw [getD_set_ne (fun h => hj h.symm)]

theorem C6_witness : deallocate [⟨4096, 1, 12, 2⟩] 0 7 = [⟨4096, 1, 12, 2⟩] :=
  (C6_deallocate_behaviour 6 7 (by decide)).1

/-- C7: the fitting search tries the hint's containing Region first
(when the hint is non-null), otherwise scans all Regions in creation
order taking the first fit; in both cases a Region is selected exactly
when `top() + n < end()` holds with strict less-than, so a Region
whose remaining capacity is exactly `n` is never selected. -/
theorem C7_fitting_first_fit (rs : List Region) (n : Nat) (hint : Int) :
    (∀ i, find_region_fitting rs n hint = some i →
      i < rs.length ∧
      (rs.getD i default).top + (n : Int) < (rs.getD i default).endp ∧
      (n : Int) < (rs.getD i default).endp - (rs.getD i default).top) ∧
    (find_region_fitting rs n hint = none →
      ∀ r ∈ rs, ¬(r.top + (n : Int) < r.endp)) ∧
    (∀ i, hint ≠ 0 → find_region_containing rs hint = some i →
      (rs.getD i default).top + (n : Int) < (rs.getD i default).endp →
      find_region_fitting rs n hint = some i) ∧
    (hint = 0 → ∀ i, (find_region_fitting rs n hint = some i ↔
      (i < rs.length ∧ (rs.getD i default).fits n = true ∧
        ∀ j, j < i → (rs.getD j default).fits n = false))) ∧
    (hint ≠ 0 → find_region_containing rs hint = none →
      ∀ i, (find_region_fitting rs n hint = some i ↔
        (i < rs.length ∧ (rs.getD i default).fits n = true ∧
          ∀ j, j < i → (rs.getD j default).fits n = false))) ∧
    (∀ i2, hint ≠ 0 → find_region_containing rs hint = some i2 →
      (rs.getD i2 default).fits n = false →
      ∀ i, (find_region_fitting rs n hint = some i ↔
        (i < rs.length ∧ (rs.getD i default).fits n = true ∧
          ∀ j, j < i → (rs.getD j default).fits n = false))) := by
  refine ⟨?_, ?_, ?_, ?_, ?_, ?_⟩
  · intro i hf
    obtain ⟨hi, hfit⟩ := fitting_some hf
    simp only [Region.fits, decide_eq_true_eq] at hfit
    exact ⟨hi, hfit, by omega⟩
  · intro hf r hr
    unfold find_region_fitting at hf
    rcases hcc : (if hint ≠ 0 then find_region_containing rs hint else none) with _ | j
    · rw [hcc] at hf
      have := findIdxO_none_iff.mp hf r hr
      simpa [Region.fits] using this
    · rw [hcc] at hf
      dsimp only at hf
      by_cases hfj : (rs.getD j default).fits (n : Int) = true
      · rw [if_pos hfj] at hf
        cases hf
      · rw [if_neg hfj] at hf
        have := findIdxO_none_iff.mp hf r hr
        simpa [Region.fits] using this
  · intro i hh hc hfit
    have hfit' : (rs.getD i default).fits (n : Int) = true := by
      simp only [Region.fits, decide_eq_true_eq]
      exact hfit
    unfold find_region_fitting
    rw [if_pos hh, hc]
    dsimp only
    rw [if_pos hfit']
  · intro hh i
    subst hh
    unfold find_region_fitting
    rw [if_neg (by simp)]
    exact findIdxO_some_iff
  · intro hh hc i
    unfold find_region_fitting
    rw [if_pos hh, hc]
    exact findIdxO_some_iff
  · intro i2 hh hc hfj i
    unfold find_region_fitting
    rw [if_pos hh, hc]
    dsimp only
    have hfj' : ¬((rs.getD i2 default).fits (n : Int) = true) := by
      rw [hfj]
      exact Bool.false_ne_true
    rw [if_neg hfj']
    exact findIdxO_some_iff

theorem C7_witness : find_region_fitting [⟨4096, 1, 5, 1⟩] 3 1 = some 0 :=
  (C7_fitting_first_fit [⟨4096, 1, 5, 1⟩] 3 1).2.2.1 0 (by decide) (by decide)
    (by decide)

/-- C10: for a non-null pointer lying in no Region's `[data, top)`
span, `reallocate` returns null and leaves the state (the Region list,
hence every size and occupancy) unchanged, for every `from_n`, `to_n`
(including 0) and hint. -/
theorem C10_foreign_pointer_noop {rs : List Region} {p : Int} (from_n to_n : Nat)
    (hint : Int) (hp : p ≠ 0) (hfor : ∀ r ∈ rs, ¬(r.data ≤ p ∧ p < r.top)) :
    reallocate rs p from_n to_n hint = (0, rs) := by
  have hc : find_region_containing rs p = none := by
    apply findIdxO_none_iff.mpr
    intro r hr
    simpa [Region.containsPtr] using hfor r hr
  simp only [reallocate, reallocateP, if_neg hp, hc]

theorem C10_witness : reallocate [⟨4096, 1, 5, 1⟩] 100 2 0 0 = (0, [⟨4096, 1, 5, 1⟩]) :=
  C10_foreign_pointer_noop 2 0 0 (by decide) (by decide)

/-- One allocate / deallocate cycle on a single cleared Region leaves
the state unchanged when the size fits strictly. -/
theorem altTrace_cycle {c b : Int} {m : Nat} (hb : 0 < b) (hm : 0 < m)
    (hmc : (m : Int) < c) :
    deallocate (allocate [⟨c, b, 0, 0⟩] m 0).2 (allocate [⟨c, b, 0, 0⟩] m 0).1 m =
      [⟨c, b, 0, 0⟩] := by
  have hfit : (⟨c, b, 0, 0⟩ : Region).fits (m : Int) = true := by
    simp only [Region.fits, Region.top, Region.endp, decide_eq_true_eq]
    omega
  have hfind : find_region_fitting [⟨c, b, 0, 0⟩] m 0 = some 0 := by
    unfold find_region_fitting
    rw [if_neg (by simp)]
    simp [findIdxO, hfit]
  have halloc : allocate [⟨c, b, 0, 0⟩] m 0 = (b, [⟨c, b, (m : Int), 1⟩]) := by
    simp [allocate, allocateP, hfind, Region.top, Region.resize, Region.ref]
  rw [halloc]
  have hx : (⟨c, b, (m : Int), 1⟩ : Region).containsPtr b = true := by
    simp only [Region.containsPtr, Region.top, decide_eq_true_eq]
    omega
  have hcont : find_region_containing [⟨c, b, (m : Int), 1⟩] b = some 0 := by
    unfold find_region_containing
    simp [findIdxO, hx]
  have hun : (⟨c, b, (m : Int), 1⟩ : Region).unref.unused = true := by
    simp [Region.unused, Region.unref]
  simp [deallocate, hcont, hun, Region.unref, Region.clear]
  intro h
  simp [Region.unused] at h

/-- The alternating trace fixes a single cleared Region. -/
theorem altTrace_single {c b : Int} (hb : 0 < b) {sizes : List Nat}
    (hall : ∀ m ∈ sizes, 0 < m ∧ (m : Int) < c) :
    altTrace [⟨c, b, 0, 0⟩] sizes = [⟨c, b, 0, 0⟩] := by
  induction sizes with
  | nil => rfl
  | cons m rest ih =>
    have hm := hall m (List.mem_cons_self m rest)
    have hcyc := altTrace_cycle (m := m) hb hm.1 hm.2
    show altTrace (deallocate (allocate [⟨c, b, 0, 0⟩] m 0).2
      (allocate [⟨c, b, 0, 0⟩] m 0).1 m) rest = _
    rw [hcyc]
    exact ih (fun x hx => hall x (List.mem_cons_of_mem _ hx))

/-- The first cycle from the empty engine creates one Region and
clears it again. -/
theorem altTrace_first {n0 : Nat} (h0 : 0 < n0) :
    deallocate (allocate [] n0 0).2 (allocate [] n0 0).1 n0 =
      [⟨capOf n0, 1, 0, 0⟩] := by
  have halloc : allocate [] n0 0 = (1, [⟨capOf n0, 1, (n0 : Int), 1⟩]) := by
    simp [allocate, allocateP, find_region_fitting, findIdxO, Region.construct,
      stdProvider, freshBase, Region.top, Region.resize, Region.ref]
  rw [halloc]
  have hx : (⟨capOf n0, 1, (n0 : Int), 1⟩ : Region).containsPtr 1 = true := by
    simp only [Region.containsPtr, Region.top, decide_eq_true_eq]
    omega
  have hcont : find_region_containing [⟨capOf n0, 1, (n0 : Int), 1⟩] 1 = some 0 := by
    unfold find_region_containing
    simp [findIdxO, hx]
  have hun : (⟨capOf n0, 1, (n0 : Int), 1⟩ : Region).unref.unused = true := by
    simp [Region.unused, Region.unref]
  simp [deallocate, hcont, hun, Region.unref, Region.clear]
  intro h
  simp [Region.unused] at h

/-- C4 counterexample: two alternating cycles of size 4096 (the live
set, a single 4096-byte allocation, fits within one Region's capacity
4096) create a second Region, because the fit test demands strictly
more than `n` free bytes. -/
theorem C4_counterexample : (altTrace [] [4096, 4096]).length = 2 := by decide

/-- C4 amended: for alternating allocate / deallocate cycles starting
from the empty engine in which every allocation after the first is
strictly smaller than the first Region's capacity (at least one byte
of slack), the number of Regions ever created never exceeds 1 (every
prefix of the trace has at most one Region, and Regions are never
destroyed). -/
theorem C4_amended_single_region {n0 : Nat} {sizes : List Nat} (h0 : 0 < n0)
    (hall : ∀ m ∈ sizes, 0 < m ∧ (m : Int) < capOf n0) (k : Nat) :
    (altTrace [] ((n0 :: sizes).take k)).length ≤ 1 := by
  cases k with
  | zero => simp [altTrace]
  | succ j =>
    rw [List.take_succ_cons]
    show (altTrace (deallocate (allocate [] n0 0).2 (allocate [] n0 0).1 n0)
      (sizes.take j)).length ≤ 1
    rw [altTrace_first h0]
    rw [altTrace_single one_pos (fun x hx => hall x (List.take_subset j sizes hx))]
    simp

theorem C4_witness : (altTrace [] ([5, 7].take 2)).length ≤ 1 :=
  C4_amended_single_region (by decide) (by decide) 2

/-- C8 counterexample: allocate A (size 1), allocate B (size 10)
immediately after, free B, allocate C (size 2 ≤ 10), all with null
hints, from a state with a nearly-full first Region: B lands in a
second Region, and after B is freed, the first-fit scan places C in
the first Region, so C's address (4092) differs from B's (4097). -/
theorem C8_counterexample :
    (allocate (allocate (allocate [] 4090 0).2 1 0).2 10 0).1 = 4097 ∧
    (allocate (deallocate (allocate (allocate (allocate [] 4090 0).2 1 0).2 10 0).2
        (allocate (allocate (allocate [] 4090 0).2 1 0).2 10 0).1 10) 2 0).1 = 4092 ∧
    (4092 : Int) ≠ 4097 := by decide

/-- LIFO reuse core, existing-Region case: B was carved from Region
`i` at its top; after freeing B, an allocation that the fitting search
sends to Region `i` returns exactly B's address. -/
theorem C8_core_existing {s1 : List Region} (hE1 : EInv s1) {i : Nat} {m c : Nat}
    {hC : Int} (hi : i < s1.length) (hfit : (s1.getD i default).fits (m : Int) = true)
    (hm : 0 < m)
    (hsel : find_region_fitting
      (deallocate (s1.set i (((s1.getD i default).resize (m : Int)).ref))
        (s1.getD i default).top m) c hC = some i) :
    (allocate (deallocate (s1.set i (((s1.getD i default).resize (m : Int)).ref))
        (s1.getD i default).top m) c hC).1 = (s1.getD i default).top := by
  have hub := fits_iff.mp hfit
  have hlb := hE1.size_lb _ (getD_mem hi default)
  have hrcn := hE1.rc_nn _ (getD_mem hi default)
  have hE2 : EInv (s1.set i (((s1.getD i default).resize (m : Int)).ref)) := by
    apply einv_set hE1 hi
    · rfl
    · rfl
    · simp only [Region.resize, Region.ref]
      omega
    · simp only [Region.resize, Region.ref]
      omega
    · simp only [Region.resize, Region.ref]
      omega
    · simp only [Region.resize, Region.ref]
      omega
  have hi2 : i < (s1.set i (((s1.getD i default).resize (m : Int)).ref)).length := by
    rw [List.length_set]
    exact hi
  have hget2 : (s1.set i (((s1.getD i default).resize (m : Int)).ref)).getD i default =
      ((s1.getD i default).resize (m : Int)).ref := getD_set_self hi _ _
  have hcont : find_region_containing
      (s1.set i (((s1.getD i default).resize (m : Int)).ref))
      (s1.getD i default).top = some i := by
    apply containing_eq_of_inv hE2 hi2
    · rw [hget2]
      simp only [Region.resize, Region.ref, Region.top]
      omega
    · rw [hget2]
      simp only [Region.resize, Region.ref, Region.top]
      omega
  by_cases hrc0 : (s1.getD i default).refCount = 0
  · have hsz0 := hE1.occ0 _ (getD_mem hi default) hrc0
    have hun : ((s1.set i (((s1.getD i default).resize (m : Int)).ref)).getD i
        default).unref.unused = true := by
      rw [hget2]
      simp only [Region.unused, Region.unref, Region.resize, Region.ref, beq_iff_eq]
      omega
    have hdred : deallocate (s1.set i (((s1.getD i default).resize (m : Int)).ref))
        (s1.getD i default).top m =
        (s1.set i (((s1.getD i default).resize (m : Int)).ref)).set i
          (((s1.set i (((s1.getD i default).resize (m : Int)).ref)).getD i
            default).unref.clear) := by
      simp only [deallocate, hcont]
      rw [if_pos hun]
    rw [hdred] at hsel ⊢
    have hfin : (allocate ((s1.set i (((s1.getD i default).resize (m : Int)).ref)).set i
        (((s1.set i (((s1.getD i default).resize (m : Int)).ref)).getD i
          default).unref.clear)) c hC).1 =
        (((s1.set i (((s1.getD i default).resize (m : Int)).ref)).set i
          (((s1.set i (((s1.getD i default).resize (m : Int)).ref)).getD i
            default).unref.clear)).getD i default).top := by
      simp only [allocate, allocateP, hsel]
    rw [hfin, getD_set_self hi2, hget2]
    simp only [Region.clear, Region.unref, Region.resize, Region.ref, Region.top]
    omega
  · have hun : ¬(((s1.set i (((s1.getD i default).resize (m : Int)).ref)).getD i
        default).unref.unused = true) := by
      rw [hget2]
      simp only [Region.unused, Region.unref, Region.resize, Region.ref, beq_iff_eq]
      omega
    have htp : ((s1.set i (((s1.getD i default).resize (m : Int)).ref)).getD i
        default).unref.top - (m : Int) = (s1.getD i default).top := by
      rw [hget2]
      simp only [Region.unref, Region.resize, Region.ref, Region.top]
      omega
    have hdred : deallocate (s1.set i (((s1.getD i default).resize (m : Int)).ref))
        (s1.getD i default).top m =
        (s1.set i (((s1.getD i default).resize (m : Int)).ref)).set i
          (((s1.set i (((s1.getD i default).resize (m : Int)).ref)).getD i
            default).unref.resize (0 - (m : Int))) := by
      simp only [deallocate, hcont]
      rw [if_neg hun, if_pos htp]
    rw [hdred] at hsel ⊢
    have hfin : (allocate ((s1.set i (((s1.getD i default).resize (m : Int)).ref)).set i
        (((s1.set i (((s1.getD i default).resize (m : Int)).ref)).getD i
          default).unref.resize (0 - (m : Int)))) c hC).1 =
        (((s1.set i (((s1.getD i default).resize (m : Int)).ref)).set i
          (((s1.set i (((s1.getD i default).resize (m : Int)).ref)).getD i
            default).unref.resize (0 - (m : Int)))).getD i default).top := by
      simp only [allocate, allocateP, hsel]
    rw [hfin, getD_set_self hi2, hget2]
    simp only [Region.unref, Region.resize, Region.ref, Region.top]
    omega

/-- LIFO reuse core, fresh-Region case: B was the first allocation of
a newly created Region; after freeing B the Region is cleared, and an
allocation that the fitting search sends there returns B's address
(the Region base). -/
theorem C8_core_fresh {s1 : List Region} (hE1 : EInv s1) {m c : Nat} {hC : Int}
    (hm : 0 < m)
    (hsel : find_region_fitting
      (deallocate (s1 ++ [(⟨capOf m, freshBase s1, (m : Int), 1⟩ : Region)]) (freshBase s1) m)
      c hC = some s1.length) :
    (allocate (deallocate (s1 ++ [(⟨capOf m, freshBase s1, (m : Int), 1⟩ : Region)])
        (freshBase s1) m) c hC).1 = freshBase s1 := by
  have hcm : (m : Int) ≤ capOf m := le_max_right _ _
  have hE2 : EInv (s1 ++ [(⟨capOf m, freshBase s1, (m : Int), 1⟩ : Region)]) := by
    apply einv_append hE1
    · intro r hr
      right
      simpa [Region.endp] using freshBase_ge hr
    · have := freshBase_pos s1
      dsimp only
      omega
    · dsimp only
      omega
    · dsimp only
      omega
    · intro h
      simp at h
    · dsimp only
      omega
  have hlen2 : s1.length < (s1 ++ [(⟨capOf m, freshBase s1, (m : Int), 1⟩ : Region)]).length := by
    rw [List.length_append, List.length_singleton]
    omega
  have hgl : (s1 ++ [(⟨capOf m, freshBase s1, (m : Int), 1⟩ : Region)]).getD s1.length default =
      (⟨capOf m, freshBase s1, (m : Int), 1⟩ : Region) := getD_append_last _ _
  have hcont : find_region_containing (s1 ++ [(⟨capOf m, freshBase s1, (m : Int), 1⟩ : Region)])
      (freshBase s1) = some s1.length := by
    apply containing_eq_of_inv hE2 hlen2
    · rw [hgl]
    · rw [hgl]
      simp only [Region.top]
      omega
  have hun : (((s1 ++ [(⟨capOf m, freshBase s1, (m : Int), 1⟩ : Region)]).getD s1.length
      default).unref.unused = true) := by
    rw [hgl]
    simp [Region.unused, Region.unref]
  have hdred : deallocate (s1 ++ [(⟨capOf m, freshBase s1, (m : Int), 1⟩ : Region)])
      (freshBase s1) m =
      (s1 ++ [(⟨capOf m, freshBase s1, (m : Int), 1⟩ : Region)]).set s1.length
        (((s1 ++ [(⟨capOf m, freshBase s1, (m : Int), 1⟩ : Region)]).getD s1.length
          default).unref.clear) := by
    simp only [deallocate, hcont]
    rw [if_pos hun]
  rw [hdred] at hsel ⊢
  have hfin : (allocate ((s1 ++ [(⟨capOf m, freshBase s1, (m : Int), 1⟩ : Region)]).set s1.length
      (((s1 ++ [(⟨capOf m, freshBase s1, (m : Int), 1⟩ : Region)]).getD s1.length
        default).unref.clear)) c hC).1 =
      (((s1 ++ [(⟨capOf m, freshBase s1, (m : Int), 1⟩ : Region)]).set s1.length
        (((s1 ++ [(⟨capOf m, freshBase s1, (m : Int), 1⟩ : Region)]).getD s1.length
          default).unref.clear)).getD s1.length default).top := by
    simp only [allocate, allocateP, hsel]
  rw [hfin, getD_set_self hlen2, hgl]
  simp [Region.clear, Region.unref, Region.top]

/-- C8 amended: allocate A (size n), then B (size m) immediately
after, free B, then allocate C (size c ≤ m); C's address equals B's
original address, provided the Region-fitting search for C selects B's
Region (as it always does when the engine has only one Region). -/
theorem C8_amended_lifo_reuse {rs : List Region} (hE : EInv rs) (n m c : Nat)
    (hA hB hC : Int) (hm : 0 < m) (hcm : c ≤ m)
    (hsel : find_region_fitting
        (deallocate (allocate (allocate rs n hA).2 m hB).2
          (allocate (allocate rs n hA).2 m hB).1 m) c hC =
      some (allocIdx (allocate rs n hA).2 m hB)) :
    (allocate (deallocate (allocate (allocate rs n hA).2 m hB).2
        (allocate (allocate rs n hA).2 m hB).1 m) c hC).1 =
      (allocate (allocate rs n hA).2 m hB).1 := by
  have hE1 : EInv (allocate rs n hA).2 := einv_allocP validProvider_std hE
  generalize hgen : (allocate rs n hA).2 = s1 at hE1 hsel ⊢
  rcases hf : find_region_fitting s1 m hB with _ | i
  · have hidx : allocIdx s1 m hB = s1.length := by
      simp [allocIdx, hf]
    have halloc2 : allocate s1 m hB =
        (freshBase s1, s1 ++ [⟨capOf m, freshBase s1, (m : Int), 1⟩]) := by
      simp [allocate, allocateP, hf, Region.construct, stdProvider, Region.top,
        Region.resize, Region.ref]
    rw [hidx, halloc2] at hsel
    rw [halloc2]
    exact C8_core_fresh hE1 hm hsel
  · have hidx : allocIdx s1 m hB = i := by
      simp [allocIdx, hf]
    obtain ⟨hi, hfit⟩ := fitting_some hf
    have halloc2 : allocate s1 m hB =
        ((s1.getD i default).top,
          s1.set i (((s1.getD i default).resize (m : Int)).ref)) := by
      simp only [allocate, allocateP, hf]
    rw [hidx, halloc2] at hsel
    rw [halloc2]
    exact C8_core_existing hE1 hi hfit hm hsel

theorem C8_witness :
    (allocate (deallocate (allocate (allocate [] 5 0).2 6 0).2
        (allocate (allocate [] 5 0).2 6 0).1 6) 6 0).1 =
      (allocate (allocate [] 5 0).2 6 0).1 :=
  C8_amended_lifo_reuse einv_nil 5 6 6 0 0 0 (by decide) (by decide) (by decide)

/-! ### Correspondence of the two backing-store variants (C9) -/

theorem getD_of_le_length {α : Type} {l : List α} {i : Nat} (h : l.length ≤ i)
    (d : α) : l.getD i d = d := by
  induction l generalizing i with
  | nil => simp
  | cons x t ih =>
    cases i with
    | zero => simp at h
    | succ j => simpa using ih (by simpa using h)

theorem mem_getD_index {l : List Region} {r : Region} (h : r ∈ l) :
    ∃ j, j < l.length ∧ l.getD j default = r := by
  induction l with
  | nil => simp at h
  | cons x t ih =>
    rcases List.mem_cons.mp h with h' | h'
    · exact ⟨0, by simp, by simp [h'.symm]⟩
    · obtain ⟨j, hj, hg⟩ := ih h'
      exact ⟨j + 1, by simpa using hj, by simpa using hg⟩

theorem forall₂_getD {R : Region → Region → Prop} {l1 l2 : List Region}
    (h : List.Forall₂ R l1 l2) {i : Nat} (hi : i < l1.length) :
    R (l1.getD i default) (l2.getD i default) := by
  induction h generalizing i with
  | nil => simp at hi
  | cons hr ht ih =>
    cases i with
    | zero => simpa using hr
    | succ j => simpa using ih (by simpa using hi)

theorem forall₂_set {R : Region → Region → Prop} {l1 l2 : List Region}
    (h : List.Forall₂ R l1 l2) {x1 x2 : Region} (hx : R x1 x2) (i : Nat) :
    List.Forall₂ R (l1.set i x1) (l2.set i x2) := by
  induction h generalizing i with
  | nil => simpa using List.Forall₂.nil
  | cons hr ht ih =>
    cases i with
    | zero => exact List.Forall₂.cons hx ht
    | succ j => exact List.Forall₂.cons hr (ih j)

theorem forall₂_append_single {R : Region → Region → Prop} {l1 l2 : List Region}
    (h : List.Forall₂ R l1 l2) {x1 x2 : Region} (hx : R x1 x2) :
    List.Forall₂ R (l1 ++ [x1]) (l2 ++ [x2]) := by
  induction h with
  | nil => exact List.Forall₂.cons hx List.Forall₂.nil
  | cons hr ht ih => exact List.Forall₂.cons hr ih

theorem findIdxO_congr {S : Region → Region → Prop} {l1 l2 : List Region}
    {p q : Region → Bool} (h : List.Forall₂ S l1 l2)
    (hpq : ∀ a b, S a b → p a = q b) : findIdxO p l1 = findIdxO q l2 := by
  induction h with
  | nil => rfl
  | cons hr ht ih =>
    simp only [findIdxO]
    rw [hpq _ _ hr, ih]

theorem fits_congr {a b : Region} (h : RelReg a b) (n : Int) :
    a.fits n = b.fits n := by
  obtain ⟨hc, hs, _⟩ := h
  simp only [Region.fits, Region.top, Region.endp]
  rw [decide_eq_decide]
  omega

/-- Corresponding pointers are null together (Region bases are
positive). -/
theorem ptrCorr_zero {rs1 rs2 : List Region} (e1 : EInv rs1) (e2 : EInv rs2)
    (hlen : rs1.length = rs2.length) {a b : Int} (h : PtrCorr rs1 rs2 a b) :
    (a = 0 ↔ b = 0) := by
  rcases h with ⟨ha, hb⟩ | ⟨j, hj, h1, h2, hb⟩
  · simp [ha, hb]
  · have hp1 := e1.pos _ (getD_mem hj default)
    have hp2 := e2.pos _ (getD_mem (l := rs2) (i := j) (by omega) default)
    constructor
    · intro h0
      omega
    · intro h0
      omega

/-- `PtrCorr` is preserved by in-place Region updates that keep the
base and capacity. -/
theorem ptrCorr_set {rs1 rs2 : List Region} {i : Nat} {x1 x2 : Region}
    (hi2 : i < rs2.length)
    (h1d : x1.data = (rs1.getD i default).data)
    (h1c : x1.capacity = (rs1.getD i default).capacity)
    (h2d : x2.data = (rs2.getD i default).data)
    (h2c : x2.capacity = (rs2.getD i default).capacity)
    {a b : Int} (h : PtrCorr rs1 rs2 a b) :
    PtrCorr (rs1.set i x1) (rs2.set i x2) a b := by
  rcases h with hnull | ⟨j, hj, ha1, ha2, hb⟩
  · exact Or.inl hnull
  · right
    refine ⟨j, by rw [List.length_set]; exact hj, ?_, ?_, ?_⟩
    · by_cases hij : i = j
      · subst hij
        rw [getD_set_self hj, h1d]
        exact ha1
      · rw [getD_set_ne hij]
        exact ha1
    · by_cases hij : i = j
      · subst hij
        rw [getD_set_self hj]
        simp only [Region.endp] at ha2 ⊢
        omega
      · rw [getD_set_ne hij]
        exact ha2
    · by_cases hij : i = j
      · subst hij
        rw [getD_set_self hj, getD_set_self hi2, h1d, h2d]
        exact hb
      · rw [getD_set_ne hij, getD_set_ne hij]
        exact hb

/-- `PtrCorr` is preserved by appending a fresh Region to both runs. -/
theorem ptrCorr_append {rs1 rs2 : List Region} (hlen : rs1.length = rs2.length)
    {x1 x2 : Region} {a b : Int} (h : PtrCorr rs1 rs2 a b) :
    PtrCorr (rs1 ++ [x1]) (rs2 ++ [x2]) a b := by
  rcases h with hnull | ⟨j, hj, ha1, ha2, hb⟩
  · exact Or.inl hnull
  · right
    refine ⟨j, by rw [List.length_append]; omega, ?_, ?_, ?_⟩
    · rwa [getD_append_left hj]
    · rwa [getD_append_left hj]
    · rw [getD_append_left hj, getD_append_left (by omega : j < rs2.length)]
      exact hb

/-- Corresponding pointers are found in the same Region (or in none)
by the containment scan. -/
theorem containing_corr {rs1 rs2 : List Region} (e1 : EInv rs1) (e2 : EInv rs2)
    (hs : List.Forall₂ RelReg rs1 rs2) {a b : Int} (hpc : PtrCorr rs1 rs2 a b) :
    find_region_containing rs1 a = find_region_containing rs2 b := by
  have hlen : rs1.length = rs2.length := hs.length_eq
  rcases hpc with ⟨ha, hb⟩ | ⟨i, hi, h1, h2, hb⟩
  · subst ha
    subst hb
    have hn1 : find_region_containing rs1 0 = none := by
      apply findIdxO_none_iff.mpr
      intro r hr
      have := e1.pos r hr
      simp only [Region.containsPtr, decide_eq_false_iff_not]
      omega
    have hn2 : find_region_containing rs2 0 = none := by
      apply findIdxO_none_iff.mpr
      intro r hr
      have := e2.pos r hr
      simp only [Region.containsPtr, decide_eq_false_iff_not]
      omega
    rw [hn1, hn2]
  · have hi2 : i < rs2.length := by omega
    obtain ⟨hcap, hsz, hrc⟩ := forall₂_getD hs hi
    have hub1 := e1.size_ub _ (getD_mem hi default)
    have hub2 := e2.size_ub _ (getD_mem hi2 default)
    simp only [Region.endp] at h2
    by_cases hin : a < (rs1.getD i default).top
    · have hc1 : find_region_containing rs1 a = some i :=
        containing_eq_of_inv e1 hi h1 hin
      have hin2 : b < (rs2.getD i default).top := by
        simp only [Region.top] at hin ⊢
        omega
      have hb2 : (rs2.getD i default).data ≤ b := by omega
      have hc2 : find_region_containing rs2 b = some i :=
        containing_eq_of_inv e2 hi2 hb2 hin2
      rw [hc1, hc2]
    · have hn1 : find_region_containing rs1 a = none := by
        apply findIdxO_none_iff.mpr
        intro r hr
        obtain ⟨j, hj, hgj⟩ := mem_getD_index hr
        subst hgj
        simp only [Region.containsPtr, decide_eq_false_iff_not]
        by_cases hji : j = i
        · subst hji
          rintro ⟨_, hx⟩
          exact hin hx
        · have hd := e1.disj j i hj hi hji
          have hubj := e1.size_ub _ (getD_mem hj default)
          simp only [RangeDisj, Region.endp, Region.top] at hd ⊢
          omega
      have hn2 : find_region_containing rs2 b = none := by
        apply findIdxO_none_iff.mpr
        intro r hr
        obtain ⟨j, hj, hgj⟩ := mem_getD_index hr
        subst hgj
        simp only [Region.containsPtr, decide_eq_false_iff_not]
        by_cases hji : j = i
        · subst hji
          rintro ⟨_, hx⟩
          simp only [Region.top] at hx hin
          omega
        · have hd := e2.disj j i hj hi2 hji
          have hubj := e2.size_ub _ (getD_mem hj default)
          simp only [RangeDisj, Region.endp, Region.top] at hd ⊢
          omega
      rw [hn1, hn2]

/-- Corresponding hints lead the fitting search to the same Region
index in both runs. -/
theorem fitting_corr {rs1 rs2 : List Region} (e1 : EInv rs1) (e2 : EInv rs2)
    (hs : List.Forall₂ RelReg rs1 rs2) {n : Nat} {h1v h2v : Int}
    (hh : PtrCorr rs1 rs2 h1v h2v) :
    find_region_fitting rs1 n h1v = find_region_fitting rs2 n h2v := by
  have hlen : rs1.length = rs2.length := hs.length_eq
  have hscan : findIdxO (fun r => r.fits (n : Int)) rs1 =
      findIdxO (fun r => r.fits (n : Int)) rs2 :=
    findIdxO_congr hs (fun x y hr => fits_congr hr n)
  have hz := ptrCorr_zero e1 e2 hlen hh
  by_cases h0 : h1v = 0
  · have h02 : h2v = 0 := hz.mp h0
    unfold find_region_fitting
    rw [if_neg (by simp [h0]), if_neg (by simp [h02])]
    exact hscan
  · have h02 : ¬h2v = 0 := fun hcc => h0 (hz.mpr hcc)
    have hcc := containing_corr e1 e2 hs hh
    unfold find_region_fitting
    rw [if_pos h0, if_pos h02, hcc]
    rcases hcase : find_region_containing rs2 h2v with _ | j
    · exact hscan
    · show (if (rs1.getD j default).fits (n : Int) = true then some j
          else findIdxO (fun r => r.fits (n : Int)) rs1) =
        (if (rs2.getD j default).fits (n : Int) = true then some j
          else findIdxO (fun r => r.fits (n : Int)) rs2)
      have hj2 : j < rs2.length := (containing_some hcase).1
      have hj1 : j < rs1.length := by omega
      have hfeq : (rs1.getD j default).fits (n : Int) =
          (rs2.getD j default).fits (n : Int) := fits_congr (forall₂_getD hs hj1) n
      rw [hfeq]
      by_cases hfj : (rs2.getD j default).fits (n : Int) = true
      · rw [if_pos hfj, if_pos hfj]
      · rw [if_neg hfj, if_neg hfj]
        exact hscan

/-- A pointer contained in a Region's used part corresponds at the
same offset of the same Region in the other run. -/
theorem corr_offset {rs1 rs2 : List Region} (e1 : EInv rs1)
    {p1 p2 : Int} (hp : PtrCorr rs1 rs2 p1 p2) {i : Nat}
    (hi1 : i < rs1.length) (hd1 : (rs1.getD i default).data ≤ p1)
    (ht1 : p1 < (rs1.getD i default).top) :
    p2 - (rs2.getD i default).data = p1 - (rs1.getD i default).data := by
  rcases hp with ⟨hz1, _⟩ | ⟨j, hj, hj1, hj2, hb⟩
  · exfalso
    have := e1.pos _ (getD_mem hi1 default)
    omega
  · have hji : j = i := by
      by_contra hne
      have hd := e1.disj j i hj hi1 hne
      have hubi := e1.size_ub _ (getD_mem hi1 default)
      simp only [RangeDisj, Region.endp, Region.top] at hd ht1 hj2
      omega
    subst hji
    omega

theorem allocP_corr {P1 P2 : Provider} {rs1 rs2 : List Region} (e1 : EInv rs1)
    (e2 : EInv rs2) (hs : List.Forall₂ RelReg rs1 rs2) {n : Nat} {h1v h2v : Int}
    (hh : PtrCorr rs1 rs2 h1v h2v) :
    List.Forall₂ RelReg (allocateP P1 rs1 n h1v).2 (allocateP P2 rs2 n h2v).2 ∧
    PtrCorr (allocateP P1 rs1 n h1v).2 (allocateP P2 rs2 n h2v).2
      (allocateP P1 rs1 n h1v).1 (allocateP P2 rs2 n h2v).1 ∧
    ∀ a b, PtrCorr rs1 rs2 a b →
      PtrCorr (allocateP P1 rs1 n h1v).2 (allocateP P2 rs2 n h2v).2 a b := by
  have hlen : rs1.length = rs2.length := hs.length_eq
  have hfind := fitting_corr e1 e2 hs hh (n := n)
  rcases hf : find_region_fitting rs1 n h1v with _ | i
  · have hf2 : find_region_fitting rs2 n h2v = none := by rw [← hfind]; exact hf
    have hred1 : allocateP P1 rs1 n h1v =
        (P1 rs1 (capOf n), rs1 ++ [⟨capOf n, P1 rs1 (capOf n), (n : Int), 1⟩]) := by
      simp [allocateP, hf, Region.construct, Region.top, Region.resize, Region.ref]
    have hred2 : allocateP P2 rs2 n h2v =
        (P2 rs2 (capOf n), rs2 ++ [⟨capOf n, P2 rs2 (capOf n), (n : Int), 1⟩]) := by
      simp [allocateP, hf2, Region.construct, Region.top, Region.resize, Region.ref]
    rw [hred1, hred2]
    dsimp only
    have hrel : RelReg (⟨capOf n, P1 rs1 (capOf n), (n : Int), 1⟩ : Region)
        ⟨capOf n, P2 rs2 (capOf n), (n : Int), 1⟩ := ⟨rfl, rfl, rfl⟩
    refine ⟨forall₂_append_single hs hrel, ?_, ?_⟩
    · right
      have h4096 : (4096 : Int) ≤ capOf n := le_max_left _ _
      refine ⟨rs1.length, by simp, ?_, ?_, ?_⟩
      · rw [getD_append_last]
      · rw [getD_append_last]
        simp only [Region.endp]
        omega
      · rw [getD_append_last]
        have hgl2 : (rs2 ++ [(⟨capOf n, P2 rs2 (capOf n), (n : Int), 1⟩ : Region)]).getD
            rs1.length default = ⟨capOf n, P2 rs2 (capOf n), (n : Int), 1⟩ := by
          rw [hlen]
          exact getD_append_last _ _
        rw [hgl2]
        dsimp only
        omega
    · intro a b hab
      exact ptrCorr_append hlen hab
  · have hf2 : find_region_fitting rs2 n h2v = some i := by rw [← hfind]; exact hf
    obtain ⟨hi1, hfit1⟩ := fitting_some hf
    obtain ⟨hi2, hfit2⟩ := fitting_some hf2
    obtain ⟨hcap, hsz, hrc⟩ := forall₂_getD hs hi1
    have hred1 : allocateP P1 rs1 n h1v =
        ((rs1.getD i default).top,
          rs1.set i (((rs1.getD i default).resize (n : Int)).ref)) := by
      simp only [allocateP, hf]
    have hred2 : allocateP P2 rs2 n h2v =
        ((rs2.getD i default).top,
          rs2.set i (((rs2.getD i default).resize (n : Int)).ref)) := by
      simp only [allocateP, hf2]
    rw [hred1, hred2]
    dsimp only
    have hrel : RelReg (((rs1.getD i default).resize (n : Int)).ref)
        (((rs2.getD i default).resize (n : Int)).ref) := by
      refine ⟨?_, ?_, ?_⟩ <;> simp only [Region.resize, Region.ref] <;> omega
    refine ⟨forall₂_set hs hrel i, ?_, ?_⟩
    · right
      have hub1 := fits_iff.mp hfit1
      have hlb1 := e1.size_lb _ (getD_mem hi1 default)
      refine ⟨i, by rw [List.length_set]; exact hi1, ?_, ?_, ?_⟩
      · rw [getD_set_self hi1]
        simp only [Region.resize, Region.ref, Region.top]
        omega
      · rw [getD_set_self hi1]
        simp only [Region.resize, Region.ref, Region.top, Region.endp]
        omega
      · rw [getD_set_self hi1, getD_set_self hi2]
        simp only [Region.resize, Region.ref, Region.top]
        omega
    · intro a b hab
      refine ptrCorr_set hi2 ?_ ?_ ?_ ?_ hab <;> rfl

theorem dealloc_corr {rs1 rs2 : List Region} (e1 : EInv rs1) (e2 : EInv rs2)
    (hs : List.Forall₂ RelReg rs1 rs2) {p1 p2 : Int} {n : Nat}
    (hp : PtrCorr rs1 rs2 p1 p2) :
    List.Forall₂ RelReg (deallocate rs1 p1 n) (deallocate rs2 p2 n) ∧
    ∀ a b, PtrCorr rs1 rs2 a b →
      PtrCorr (deallocate rs1 p1 n) (deallocate rs2 p2 n) a b := by
  have hlen : rs1.length = rs2.length := hs.length_eq
  have hcc := containing_corr e1 e2 hs hp
  rcases hc1 : find_region_containing rs1 p1 with _ | i
  · have hc2 : find_region_containing rs2 p2 = none := by rw [← hcc]; exact hc1
    have hred1 : deallocate rs1 p1 n = rs1 := by simp [deallocate, hc1]
    have hred2 : deallocate rs2 p2 n = rs2 := by simp [deallocate, hc2]
    rw [hred1, hred2]
    exact ⟨hs, fun a b h => h⟩
  · have hc2 : find_region_containing rs2 p2 = some i := by rw [← hcc]; exact hc1
    obtain ⟨hi1, hd1, ht1⟩ := containing_some hc1
    obtain ⟨hi2, hd2, ht2⟩ := containing_some hc2
    obtain ⟨hcap, hsz, hrc⟩ := forall₂_getD hs hi1
    have hoff := corr_offset e1 hp hi1 hd1 ht1
    have hrw1 : deallocate rs1 p1 n = rs1.set i
        (if (rs1.getD i default).unref.unused = true then (rs1.getD i default).unref.clear
         else if (rs1.getD i default).unref.top - (n : Int) = p1 then
           (rs1.getD i default).unref.resize (0 - (n : Int))
         else (rs1.getD i default).unref) := by
      simp only [deallocate, hc1]
    have hrw2 : deallocate rs2 p2 n = rs2.set i
        (if (rs2.getD i default).unref.unused = true then (rs2.getD i default).unref.clear
         else if (rs2.getD i default).unref.top - (n : Int) = p2 then
           (rs2.getD i default).unref.resize (0 - (n : Int))
         else (rs2.getD i default).unref) := by
      simp only [deallocate, hc2]
    rw [hrw1, hrw2]
    have hueq : ((rs1.getD i default).unref.unused = true) ↔
        ((rs2.getD i default).unref.unused = true) := by
      simp only [Region.unused, Region.unref, beq_iff_eq]
      omega
    have hteq : ((rs1.getD i default).unref.top - (n : Int) = p1) ↔
        ((rs2.getD i default).unref.top - (n : Int) = p2) := by
      simp only [Region.top, Region.unref]
      omega
    by_cases hu : (rs1.getD i default).unref.unused = true
    · rw [if_pos hu, if_pos (hueq.mp hu)]
      refine ⟨forall₂_set hs ?_ i, ?_⟩
      · refine ⟨?_, ?_, ?_⟩ <;>
          simp only [Region.clear, Region.unref] <;> omega
      · intro a b h
        refine ptrCorr_set hi2 ?_ ?_ ?_ ?_ h <;> rfl
    · rw [if_neg hu, if_neg (fun hx => hu (hueq.mpr hx))]
      by_cases htp : (rs1.getD i default).unref.top - (n : Int) = p1
      · rw [if_pos htp, if_pos (hteq.mp htp)]
        refine ⟨forall₂_set hs ?_ i, ?_⟩
        · refine ⟨?_, ?_, ?_⟩ <;>
            simp only [Region.resize, Region.unref] <;> omega
        · intro a b h
          refine ptrCorr_set hi2 ?_ ?_ ?_ ?_ h <;> rfl
      · rw [if_neg htp, if_neg (fun hx => htp (hteq.mpr hx))]
        refine ⟨forall₂_set hs ?_ i, ?_⟩
        · refine ⟨?_, ?_, ?_⟩ <;>
            simp only [Region.unref] <;> omega
        · intro a b h
          refine ptrCorr_set hi2 ?_ ?_ ?_ ?_ h <;> rfl

theorem reallocP_corr {P1 P2 : Provider} (hP1 : ValidProvider P1)
    (hP2 : ValidProvider P2) {rs1 rs2 : List Region} (e1 : EInv rs1)
    (e2 : EInv rs2) (hs : List.Forall₂ RelReg rs1 rs2) {p1 p2 : Int}
    {from_n to_n : Nat} {h1v h2v : Int} (hp : PtrCorr rs1 rs2 p1 p2)
    (hh : PtrCorr rs1 rs2 h1v h2v) :
    List.Forall₂ RelReg (reallocateP P1 rs1 p1 from_n to_n h1v).2
      (reallocateP P2 rs2 p2 from_n to_n h2v).2 ∧
    PtrCorr (reallocateP P1 rs1 p1 from_n to_n h1v).2
      (reallocateP P2 rs2 p2 from_n to_n h2v).2
      (reallocateP P1 rs1 p1 from_n to_n h1v).1
      (reallocateP P2 rs2 p2 from_n to_n h2v).1 ∧
    ∀ a b, PtrCorr rs1 rs2 a b →
      PtrCorr (reallocateP P1 rs1 p1 from_n to_n h1v).2
        (reallocateP P2 rs2 p2 from_n to_n h2v).2 a b := by
  have hlen : rs1.length = rs2.length := hs.length_eq
  have hz := ptrCorr_zero e1 e2 hlen hp
  by_cases h0 : p1 = 0
  · have h02 : p2 = 0 := hz.mp h0
    have hred1 : reallocateP P1 rs1 p1 from_n to_n h1v = allocateP P1 rs1 to_n h1v := by
      simp [reallocateP, h0]
    have hred2 : reallocateP P2 rs2 p2 from_n to_n h2v = allocateP P2 rs2 to_n h2v := by
      simp [reallocateP, h02]
    rw [hred1, hred2]
    exact allocP_corr e1 e2 hs hh
  · have h02 : ¬p2 = 0 := fun hx => h0 (hz.mpr hx)
    have hcc := containing_corr e1 e2 hs hp
    rcases hc1 : find_region_containing rs1 p1 with _ | i
    · have hc2 : find_region_containing rs2 p2 = none := by rw [← hcc]; exact hc1
      have hred1 : reallocateP P1 rs1 p1 from_n to_n h1v = (0, rs1) := by
        simp only [reallocateP, if_neg h0, hc1]
      have hred2 : reallocateP P2 rs2 p2 from_n to_n h2v = (0, rs2) := by
        simp only [reallocateP, if_neg h02, hc2]
      rw [hred1, hred2]
      exact ⟨hs, Or.inl ⟨rfl, rfl⟩, fun a b h => h⟩
    · have hc2 : find_region_containing rs2 p2 = some i := by rw [← hcc]; exact hc1
      obtain ⟨hi1, hd1, ht1⟩ := containing_some hc1
      obtain ⟨hi2, hd2, ht2⟩ := containing_some hc2
      obtain ⟨hcap, hsz, hrc⟩ := forall₂_getD hs hi1
      have hoff := corr_offset e1 hp hi1 hd1 ht1
      by_cases ht0 : to_n = 0
      · have hred1 : reallocateP P1 rs1 p1 from_n to_n h1v =
            (0, deallocate rs1 p1 from_n) := by
          simp only [reallocateP, if_neg h0, hc1, if_pos ht0]
        have hred2 : reallocateP P2 rs2 p2 from_n to_n h2v =
            (0, deallocate rs2 p2 from_n) := by
          simp only [reallocateP, if_neg h02, hc2, if_pos ht0]
        rw [hred1, hred2]
        obtain ⟨hfa, hst⟩ := dealloc_corr e1 e2 hs hp (n := from_n)
        exact ⟨hfa, Or.inl ⟨rfl, rfl⟩, hst⟩
      · have hipiff : ((rs1.getD i default).top - (from_n : Int) = p1 ∧
            (rs1.getD i default).top + ((to_n : Int) - (from_n : Int)) <
              (rs1.getD i default).endp) ↔
            ((rs2.getD i default).top - (from_n : Int) = p2 ∧
            (rs2.getD i default).top + ((to_n : Int) - (from_n : Int)) <
              (rs2.getD i default).endp) := by
          simp only [Region.top, Region.endp]
          omega
        by_cases hip : (rs1.getD i default).top - (from_n : Int) = p1 ∧
            (rs1.getD i default).top + ((to_n : Int) - (from_n : Int)) <
              (rs1.getD i default).endp
        · have hred1 : reallocateP P1 rs1 p1 from_n to_n h1v =
              (p1, rs1.set i ((rs1.getD i default).resize
                ((to_n : Int) - (from_n : Int)))) := by
            simp only [reallocateP, if_neg h0, hc1, if_neg ht0, if_pos hip]
          have hred2 : reallocateP P2 rs2 p2 from_n to_n h2v =
              (p2, rs2.set i ((rs2.getD i default).resize
                ((to_n : Int) - (from_n : Int)))) := by
            simp only [reallocateP, if_neg h02, hc2, if_neg ht0,
              if_pos (hipiff.mp hip)]
          rw [hred1, hred2]
          dsimp only
          have hrel : RelReg ((rs1.getD i default).resize ((to_n : Int) - (from_n : Int)))
              ((rs2.getD i default).resize ((to_n : Int) - (from_n : Int))) := by
            refine ⟨?_, ?_, ?_⟩ <;> simp only [Region.resize] <;> omega
          refine ⟨forall₂_set hs hrel i, ?_, ?_⟩
          · refine ptrCorr_set hi2 ?_ ?_ ?_ ?_ hp <;> rfl
          · intro a b h
            refine ptrCorr_set hi2 ?_ ?_ ?_ ?_ h <;> rfl
        · by_cases hle : to_n ≤ from_n
          · have hred1 : reallocateP P1 rs1 p1 from_n to_n h1v = (p1, rs1) := by
              simp only [reallocateP, if_neg h0, hc1, if_neg ht0, if_neg hip,
                if_pos hle]
            have hred2 : reallocateP P2 rs2 p2 from_n to_n h2v = (p2, rs2) := by
              simp only [reallocateP, if_neg h02, hc2, if_neg ht0,
                if_neg (fun hx => hip (hipiff.mpr hx)), if_pos hle]
            rw [hred1, hred2]
            exact ⟨hs, hp, fun a b h => h⟩
          · have hred1 : reallocateP P1 rs1 p1 from_n to_n h1v =
                ((allocateP P1 rs1 to_n h1v).1,
                  deallocate (allocateP P1 rs1 to_n h1v).2 p1 from_n) := by
              simp only [reallocateP, if_neg h0, hc1, if_neg ht0, if_neg hip,
                if_neg hle]
            have hred2 : reallocateP P2 rs2 p2 from_n to_n h2v =
                ((allocateP P2 rs2 to_n h2v).1,
                  deallocate (allocateP P2 rs2 to_n h2v).2 p2 from_n) := by
              simp only [reallocateP, if_neg h02, hc2, if_neg ht0,
                if_neg (fun hx => hip (hipiff.mpr hx)), if_neg hle]
            rw [hred1, hred2]
            dsimp only
            obtain ⟨hfa, hq, hst⟩ := @allocP_corr P1 P2 rs1 rs2 e1 e2 hs to_n
              h1v h2v hh
            have e1' : EInv (allocateP P1 rs1 to_n h1v).2 := einv_allocP hP1 e1
            have e2' : EInv (allocateP P2 rs2 to_n h2v).2 := einv_allocP hP2 e2
            have hp' := hst p1 p2 hp
            obtain ⟨hfa2, hst2⟩ := dealloc_corr e1' e2' hfa hp' (n := from_n)
            exact ⟨hfa2, hst2 _ _ hq, fun a b h => hst2 a b (hst a b h)⟩

theorem corr_init : Corr ⟨[], []⟩ ⟨[], []⟩ :=
  ⟨einv_nil, einv_nil, List.Forall₂.nil, rfl, fun _ => Or.inl ⟨rfl, rfl⟩⟩

/-- One abstract call preserves the correspondence. -/
theorem runOp_corr {P1 P2 : Provider} (hP1 : ValidProvider P1)
    (hP2 : ValidProvider P2) {r1 r2 : Run} (hc : Corr r1 r2) (op : AOp) :
    Corr (runOp P1 r1 op) (runOp P2 r2 op) := by
  obtain ⟨e1, e2, hs, holen, hocorr⟩ := hc
  cases op with
  | opAlloc n h =>
    have hh : PtrCorr r1.regions r2.regions (hintVal r1.outs h)
        (hintVal r2.outs h) := by
      cases h with
      | none => exact Or.inl ⟨rfl, rfl⟩
      | some k => exact hocorr k
    obtain ⟨hfa, hq, hst⟩ := @allocP_corr P1 P2 r1.regions r2.regions e1 e2 hs n
      (hintVal r1.outs h) (hintVal r2.outs h) hh
    refine ⟨einv_allocP hP1 e1, einv_allocP hP2 e2, hfa, ?_, ?_⟩
    · show (r1.outs ++ [(allocateP P1 r1.regions n (hintVal r1.outs h)).1]).length =
        (r2.outs ++ [(allocateP P2 r2.regions n (hintVal r2.outs h)).1]).length
      simp [holen]
    · intro k
      show PtrCorr (allocateP P1 r1.regions n (hintVal r1.outs h)).2
        (allocateP P2 r2.regions n (hintVal r2.outs h)).2
        ((r1.outs ++ [(allocateP P1 r1.regions n (hintVal r1.outs h)).1]).getD k 0)
        ((r2.outs ++ [(allocateP P2 r2.regions n (hintVal r2.outs h)).1]).getD k 0)
      by_cases hk : k < r1.outs.length
      · rw [getD_append_left hk, getD_append_left (by omega : k < r2.outs.length)]
        exact hst _ _ (hocorr k)
      · by_cases hk2 : k = r1.outs.length
        · subst hk2
          rw [getD_append_last]
          have hgl2 : (r2.outs ++
              [(allocateP P2 r2.regions n (hintVal r2.outs h)).1]).getD
                r1.outs.length 0 =
              (allocateP P2 r2.regions n (hintVal r2.outs h)).1 := by
            rw [holen]
            exact getD_append_last _ _
          rw [hgl2]
          exact hq
        · rw [getD_of_le_length (by simp only [List.length_append,
              List.length_singleton]; omega) 0,
            getD_of_le_length (by simp only [List.length_append,
              List.length_singleton]; omega) 0]
          exact Or.inl ⟨rfl, rfl⟩
  | opDealloc k n =>
    obtain ⟨hfa, hst⟩ := dealloc_corr e1 e2 hs (hocorr k) (n := n)
    exact ⟨einv_dealloc e1, einv_dealloc e2, hfa, holen,
      fun k2 => hst _ _ (hocorr k2)⟩
  | opRealloc k f t h =>
    have hh : PtrCorr r1.regions r2.regions (hintVal r1.outs h)
        (hintVal r2.outs h) := by
      cases h with
      | none => exact Or.inl ⟨rfl, rfl⟩
      | some k3 => exact hocorr k3
    obtain ⟨hfa, hq, hst⟩ := @reallocP_corr P1 P2 hP1 hP2 r1.regions r2.regions
      e1 e2 hs (r1.outs.getD k 0) (r2.outs.getD k 0) f t
      (hintVal r1.outs h) (hintVal r2.outs h) (hocorr k) hh
    refine ⟨einv_reallocP hP1 e1, einv_reallocP hP2 e2, hfa, ?_, ?_⟩
    · show (r1.outs ++
          [(reallocateP P1 r1.regions (r1.outs.getD k 0) f t (hintVal r1.outs h)).1]).length =
        (r2.outs ++
          [(reallocateP P2 r2.regions (r2.outs.getD k 0) f t (hintVal r2.outs h)).1]).length
      simp [holen]
    · intro k2
      show PtrCorr
        (reallocateP P1 r1.regions (r1.outs.getD k 0) f t (hintVal r1.outs h)).2
        (reallocateP P2 r2.regions (r2.outs.getD k 0) f t (hintVal r2.outs h)).2
        ((r1.outs ++
          [(reallocateP P1 r1.regions (r1.outs.getD k 0) f t (hintVal r1.outs h)).1]).getD k2 0)
        ((r2.outs ++
          [(reallocateP P2 r2.regions (r2.outs.getD k 0) f t (hintVal r2.outs h)).1]).getD k2 0)
      by_cases hk : k2 < r1.outs.length
      · rw [getD_append_left hk, getD_append_left (by omega : k2 < r2.outs.length)]
        exact hst _ _ (hocorr k2)
      · by_cases hk2 : k2 = r1.outs.length
        · subst hk2
          rw [getD_append_last]
          have hgl2 : (r2.outs ++
              [(reallocateP P2 r2.regions (r2.outs.getD k 0) f t
                (hintVal r2.outs h)).1]).getD r1.outs.length 0 =
              (reallocateP P2 r2.regions (r2.outs.getD k 0) f t
                (hintVal r2.outs h)).1 := by
            rw [holen]
            exact getD_append_last _ _
          rw [hgl2]
          exact hq
        · have hb1 : (r1.outs ++
              [(reallocateP P1 r1.regions (r1.outs.getD k 0) f t
                (hintVal r1.outs h)).1]).length ≤ k2 := by
            simp only [List.length_append, List.length_singleton]
            omega
          have hb2 : (r2.outs ++
              [(reallocateP P2 r2.regions (r2.outs.getD k 0) f t
                (hintVal r2.outs h)).1]).length ≤ k2 := by
            simp only [List.length_append, List.length_singleton]
            omega
          rw [getD_of_le_length hb1 0, getD_of_le_length hb2 0]
          exact Or.inl ⟨rfl, rfl⟩

theorem runOps_corr {P1 P2 : Provider} (hP1 : ValidProvider P1)
    (hP2 : ValidProvider P2) (ops : List AOp) :
    Corr (runOps P1 ops) (runOps P2 ops) := by
  suffices h : ∀ r1 r2 : Run, Corr r1 r2 →
      Corr (ops.foldl (runOp P1) r1) (ops.foldl (runOp P2) r2) from
    h ⟨[], []⟩ ⟨[], []⟩ corr_init
  induction ops with
  | nil => exact fun r1 r2 h => h
  | cons op rest ih =>
    intro r1 r2 h
    exact ih _ _ (runOp_corr hP1 hP2 h op)

/-- C9: the heap-delegating and virtual-memory backends run the same
engine logic. The two source variants are textually identical except
for `allocate_memory`/`deallocate_memory`; abstracting that difference
as a backing-store provider, any two valid providers produce, for every
call sequence, the same Region selection and creation, the same
size / occupancy transitions for every Region, and pointers at the
same offsets within the corresponding Regions. -/
theorem C9_backend_equivalence {P1 P2 : Provider} (hP1 : ValidProvider P1)
    (hP2 : ValidProvider P2) (ops : List AOp) :
    List.Forall₂ RelReg (runOps P1 ops).regions (runOps P2 ops).regions ∧
    (runOps P1 ops).outs.length = (runOps P2 ops).outs.length ∧
    ∀ k, PtrCorr (runOps P1 ops).regions (runOps P2 ops).regions
      ((runOps P1 ops).outs.getD k 0) ((runOps P2 ops).outs.getD k 0) := by
  obtain ⟨_, _, hs, holen, hocorr⟩ := runOps_corr hP1 hP2 ops
  exact ⟨hs, holen, hocorr⟩

theorem C9_witness :
    List.Forall₂ RelReg
      (runOps stdProvider [AOp.opAlloc 5 none]).regions
      (runOps (fun rs _ => freshBase rs + 7) [AOp.opAlloc 5 none]).regions ∧
    (runOps stdProvider [AOp.opAlloc 5 none]).outs.length =
      (runOps (fun rs _ => freshBase rs + 7) [AOp.opAlloc 5 none]).outs.length ∧
    ∀ k, PtrCorr (runOps stdProvider [AOp.opAlloc 5 none]).regions
      (runOps (fun rs _ => freshBase rs + 7) [AOp.opAlloc 5 none]).regions
      ((runOps stdProvider [AOp.opAlloc 5 none]).outs.getD k 0)
      ((runOps (fun rs _ => freshBase rs + 7) [AOp.opAlloc 5 none]).outs.getD k 0) :=
  C9_backend_equivalence validProvider_std
    (fun rs cap => ⟨by have := freshBase_pos rs; omega,
      fun r hr => Or.inr (by have := freshBase_ge hr; omega)⟩)
    [AOp.opAlloc 5 none]

end Arena
